import Mathlib

/-!
Verification of the agentjj intent-transaction engine against its
natural-language specification.

The Rust sources are shallowly embedded:
* `src/manifest.rs` — the permission/review glob matcher (`glob_match`,
  `matches_any`, `can_change`, `requires_human_review`), modelled over
  `List Char` (Rust `&str` operations become list operations).
* `src/repo.rs` — the intent engine `Repo.apply` with its gates
  (`check_preconditions`, `check_permissions`, `apply_changes`,
  `run_invariants`, `get_previous_op_id`) as a pure state-passing function
  over a `RepoState`; jj-lib and the shell are external collaborators and
  enter the state as oracle fields (conflict flag, assigned ids, shell exit
  codes, patch outcome).
* `src/main.rs` — the checkpoint-list sort and the incremental civil-date
  loop of `chrono_lite_now`.
* `src/repo.rs` `days_to_ymd` — Hinnant's closed-form civil-from-days.
* `src/symbols.rs` — the sort/dedup post-processing of `extract_symbols`.
-/

/-! ### Glob matching (src/manifest.rs, `Permissions::glob_match`) -/

/-- Rust `str::trim_end_matches`: repeatedly removes `suf` from the end of
`s` as long as it is a suffix. -/
def trimEndMatches (suf : List Char) (s : List Char) : List Char :=
  if h : suf ≠ [] ∧ suf.isSuffixOf s then
    trimEndMatches suf (s.take (s.length - suf.length))
  else s
termination_by s.length
decreasing_by
  simp only [List.length_take]
  have hs : suf <:+ s := List.isSuffixOf_iff_suffix.mp h.2
  have h1 : suf.length ≤ s.length := hs.length_le
  have h2 : 0 < suf.length := List.length_pos.mpr h.1
  omega

/-- Rust `str::contains` with a string pattern: substring search. -/
def containsSeq (pat : List Char) (s : List Char) : Bool :=
  pat.isPrefixOf s ||
    match s with
    | [] => false
    | _ :: t => containsSeq pat t

/-- Rust `str::split(c)`: split a string at every occurrence of the
character `c` (n occurrences produce n+1 parts). -/
def splitChar (c : Char) : List Char → List (List Char)
  | [] => [[]]
  | x :: xs =>
    if x = c then [] :: splitChar c xs
    else
      match splitChar c xs with
      | [] => [[x]]
      | h :: t => (x :: h) :: t

/-- `Permissions::glob_match` (src/manifest.rs:140-156): `**` matches
everything; a pattern containing `**` strips trailing `/**` then `**` and
does a prefix test; a single `*` splits into two parts and tests
prefix/suffix; anything else is literal equality. -/
def glob_match (pattern path : List Char) : Bool :=
  if pattern = ['*', '*'] then true
  else if containsSeq ['*', '*'] pattern then
    (trimEndMatches ['*', '*'] (trimEndMatches ['/', '*', '*'] pattern)).isPrefixOf path
  else if pattern.contains '*' then
    match splitChar '*' pattern with
    | [a, b] => a.isPrefixOf path && b.isSuffixOf path
    | _ => pattern == path
  else pattern == path

/-- `Permissions` (src/manifest.rs): the four glob lists. -/
structure Permissions where
  allow_change : List (List Char)
  deny_change : List (List Char)
  allow_push : List (List Char)
  deny_push : List (List Char)
deriving DecidableEq, Repr

/-- `Permissions::matches_any`. -/
def matches_any (path : List Char) (patterns : List (List Char)) : Bool :=
  patterns.any fun p => glob_match p path

/-- `Permissions::can_change`: deny wins; empty allow list allows all. -/
def can_change (perms : Permissions) (path : List Char) : Bool :=
  if matches_any path perms.deny_change then false
  else if perms.allow_change.isEmpty then true
  else matches_any path perms.allow_change

/-- `Manifest::requires_human_review`: any review glob matches. -/
def requires_human_review (require_human : List (List Char)) (path : List Char) : Bool :=
  require_human.any fun p => glob_match p path

/-! Supporting lemmas about the string helpers. -/

theorem trimEndMatches_of_not_suffix {suf s : List Char} (h : ¬ suf.isSuffixOf s = true) :
    trimEndMatches suf s = s := by
  rw [trimEndMatches]
  simp [h]

theorem trimEndMatches_append {suf pre : List Char} (hne : suf ≠ [])
    (h : ¬ suf.isSuffixOf pre = true) :
    trimEndMatches suf (pre ++ suf) = pre := by
  rw [trimEndMatches]
  have hsuf : suf.isSuffixOf (pre ++ suf) = true :=
    List.isSuffixOf_iff_suffix.mpr (List.suffix_append pre suf)
  simp only [hne, hsuf, ne_eq, not_false_iff, true_and, dite_true]
  have hlen : (pre ++ suf).length - suf.length = pre.length := by
    simp [List.length_append]
  rw [hlen, List.take_left, trimEndMatches_of_not_suffix h]

theorem not_isSuffixOf_of_star_free {suf s : List Char} (hmem : '*' ∈ suf)
    (h : '*' ∉ s) : ¬ suf.isSuffixOf s = true := by
  intro hs
  exact h ((List.isSuffixOf_iff_suffix.mp hs).sublist.subset hmem)

theorem containsSeq_of_infix {pat s : List Char} (h : pat <:+: s) :
    containsSeq pat s = true := by
  induction s with
  | nil =>
    rw [containsSeq]
    have : pat = [] := List.infix_nil.mp h
    simp [this, List.isPrefixOf_iff_prefix]
  | cons x xs ih =>
    rw [containsSeq]
    rcases List.infix_cons_iff.mp h with hpre | hinf
    · simp [List.isPrefixOf_iff_prefix.mpr hpre]
    · simp [ih hinf]

theorem infix_of_containsSeq {pat s : List Char} (h : containsSeq pat s = true) :
    pat <:+: s := by
  induction s with
  | nil =>
    rw [containsSeq] at h
    simp only [Bool.or_eq_true] at h
    rcases h with h | h
    · exact (List.isPrefixOf_iff_prefix.mp h).isInfix
    · cases h
  | cons x xs ih =>
    rw [containsSeq] at h
    simp only [Bool.or_eq_true] at h
    rcases h with h | h
    · exact (List.isPrefixOf_iff_prefix.mp h).isInfix
    · exact List.infix_cons_iff.mpr (Or.inr (ih h))

theorem splitChar_of_not_mem {c : Char} {s : List Char} (h : c ∉ s) :
    splitChar c s = [s] := by
  induction s with
  | nil => rfl
  | cons x xs ih =>
    rw [splitChar]
    have hx : ¬ x = c := fun hc => h (hc ▸ List.mem_cons_self x xs)
    have hxs : c ∉ xs := fun hc => h (List.mem_cons_of_mem x hc)
    simp only [hx, if_false, ih hxs]

theorem splitChar_append_cons {c : Char} {a b : List Char} (ha : c ∉ a) (hb : c ∉ b) :
    splitChar c (a ++ c :: b) = [a, b] := by
  induction a with
  | nil => simp [splitChar, splitChar_of_not_mem hb]
  | cons x xs ih =>
    have hx : ¬ x = c := fun hc => ha (hc ▸ List.mem_cons_self x xs)
    have hxs : c ∉ xs := fun hc => ha (List.mem_cons_of_mem x hc)
    rw [List.cons_append, splitChar]
    simp only [hx, if_false, ih hxs]

theorem splitChar_length (c : Char) (s : List Char) :
    (splitChar c s).length = s.count c + 1 := by
  induction s with
  | nil => rfl
  | cons x xs ih =>
    rw [splitChar]
    by_cases hx : x = c
    · subst hx
      simp [List.count_cons, ih]
    · simp only [hx, if_false]
      rcases hs : splitChar c xs with _ | ⟨hd, tl⟩
      · rw [hs] at ih; simp at ih
      · rw [hs] at ih
        show ((x :: hd) :: tl).length = (x :: xs).count c + 1
        have hcx : (x :: xs).count c = xs.count c := by
          simp [List.count_cons, Ne.symm hx]
        rw [hcx]
        simp only [List.length_cons] at ih ⊢
        omega

theorem mem_of_containsSeq {pat s : List Char} {c : Char} (hc : c ∈ pat)
    (h : containsSeq pat s = true) : c ∈ s :=
  (infix_of_containsSeq h).sublist.subset hc

theorem count_le_of_containsSeq {pat s : List Char} (c : Char)
    (h : containsSeq pat s = true) : pat.count c ≤ s.count c :=
  (infix_of_containsSeq h).sublist.count_le c

/-- C5: the manifest glob matcher agrees with the spec's table: `**`
matches anything; `prefix/**` (literal prefix) matches exactly the paths
starting with `prefix`; `a*b` with a single star matches exactly the paths
starting with `a` and ending with `b`; a star-free pattern matches exactly
itself. -/
theorem C5_glob_match_table :
    (∀ s : List Char, glob_match ['*', '*'] s = true) ∧
    (∀ pre s : List Char, '*' ∉ pre →
      glob_match (pre ++ ['/', '*', '*']) s = pre.isPrefixOf s) ∧
    (∀ a b s : List Char, '*' ∉ a → '*' ∉ b →
      glob_match (a ++ '*' :: b) s = (a.isPrefixOf s && b.isSuffixOf s)) ∧
    (∀ p s : List Char, '*' ∉ p → glob_match p s = (p == s)) := by
  refine ⟨fun s => by rw [glob_match]; simp, ?_, ?_, ?_⟩
  · intro pre s hpre
    rw [glob_match]
    have hne : pre ++ ['/', '*', '*'] ≠ ['*', '*'] := by
      intro h
      have := congrArg List.length h
      simp [List.length_append] at this
    have hinf : containsSeq ['*', '*'] (pre ++ ['/', '*', '*']) = true := by
      apply containsSeq_of_infix
      exact (List.IsSuffix.isInfix (by
        have : ['*', '*'] <:+ ['/', '*', '*'] := ⟨['/'], rfl⟩
        exact this.trans (List.suffix_append pre ['/', '*', '*'])))
    simp only [hne, if_false, hinf, if_true]
    have h1 : trimEndMatches ['/', '*', '*'] (pre ++ ['/', '*', '*']) = pre :=
      trimEndMatches_append (by simp)
        (not_isSuffixOf_of_star_free (by simp) hpre)
    have h2 : trimEndMatches ['*', '*'] pre = pre :=
      trimEndMatches_of_not_suffix (not_isSuffixOf_of_star_free (by simp) hpre)
    rw [h1, h2]
  · intro a b s ha hb
    rw [glob_match]
    have hcount : (a ++ '*' :: b).count '*' = 1 := by
      rw [List.count_append, List.count_cons]
      have hca : a.count '*' = 0 := by
        simp [List.count_eq_zero]; intro h; exact ha h
      have hcb : b.count '*' = 0 := by
        simp [List.count_eq_zero]; intro h; exact hb h
      simp [hca, hcb]
    have hne : a ++ '*' :: b ≠ ['*', '*'] := by
      intro h
      have := congrArg (List.count '*') h
      rw [hcount] at this
      simp [List.count_cons] at this
    have hinf : ¬ containsSeq ['*', '*'] (a ++ '*' :: b) = true := by
      intro h
      have := count_le_of_containsSeq '*' h
      rw [hcount] at this
      simp [List.count_cons] at this
    have hstar : (a ++ '*' :: b).contains '*' = true := by simp
    simp only [hne, if_false, hinf, hstar, if_true]
    rw [splitChar_append_cons ha hb]
    rfl
  · intro p s hp
    rw [glob_match]
    have hne : p ≠ ['*', '*'] := by
      intro h; exact hp (h ▸ (by simp : '*' ∈ (['*', '*'] : List Char)))
    have hinf : ¬ containsSeq ['*', '*'] p = true := by
      intro h
      exact hp (mem_of_containsSeq (by simp) h)
    have hstar : ¬ p.contains '*' = true := by simpa using hp
    simp only [hne, if_false, hinf, hstar]
    rfl

/-- C5 witness: the four cases of the table checked at concrete inputs. -/
theorem C5_glob_match_table_witness :
    glob_match ['*', '*'] ['x', 'y'] = true ∧
    glob_match (['s', 'r', 'c'] ++ ['/', '*', '*']) ['s', 'r', 'c', '/', 'm'] =
      List.isPrefixOf ['s', 'r', 'c'] ['s', 'r', 'c', '/', 'm'] ∧
    glob_match (['a'] ++ '*' :: ['b']) ['a', 'x', 'b'] =
      (List.isPrefixOf ['a'] ['a', 'x', 'b'] && List.isSuffixOf ['b'] ['a', 'x', 'b']) ∧
    glob_match ['m', 'a', 'i', 'n'] ['m', 'a', 'i', 'n'] =
      (['m', 'a', 'i', 'n'] == ['m', 'a', 'i', 'n']) :=
  ⟨C5_glob_match_table.1 _,
   C5_glob_match_table.2.1 _ _ (by decide),
   C5_glob_match_table.2.2.1 _ _ _ (by decide) (by decide),
   C5_glob_match_table.2.2.2 _ _ (by decide)⟩

theorem containsSeq_self (pat : List Char) : containsSeq pat pat = true :=
  containsSeq_of_infix (List.infix_refl pat)

/-- C10: a pattern with two or more single stars and no `**` falls through
to the literal-equality case of `glob_match`; since a star-free path can
never equal such a pattern, the pattern matches no star-free path, and
`requires_human_review` / `can_change` treat it as matching nothing. -/
theorem C10_multi_star_matches_nothing :
    (∀ pattern path : List Char, 2 ≤ pattern.count '*' →
      containsSeq ['*', '*'] pattern = false →
      glob_match pattern path = (pattern == path)) ∧
    (∀ pattern path : List Char, 2 ≤ pattern.count '*' →
      containsSeq ['*', '*'] pattern = false → '*' ∉ path →
      glob_match pattern path = false) ∧
    (∀ (pats : List (List Char)) (path : List Char),
      (∀ p ∈ pats, 2 ≤ List.count '*' p ∧ containsSeq ['*', '*'] p = false) →
      '*' ∉ path → requires_human_review pats path = false) ∧
    (∀ (perms : Permissions) (path : List Char),
      (∀ p ∈ perms.deny_change, 2 ≤ List.count '*' p ∧ containsSeq ['*', '*'] p = false) →
      (∀ p ∈ perms.allow_change, 2 ≤ List.count '*' p ∧ containsSeq ['*', '*'] p = false) →
      perms.allow_change ≠ [] → '*' ∉ path →
      can_change perms path = false) := by
  have hlit : ∀ pattern path : List Char, 2 ≤ pattern.count '*' →
      containsSeq ['*', '*'] pattern = false →
      glob_match pattern path = (pattern == path) := by
    intro pattern path hcount hgg
    rw [glob_match]
    have hne : pattern ≠ ['*', '*'] := by
      intro h
      rw [h, containsSeq_self] at hgg
      cases hgg
    have hstar : pattern.contains '*' = true := by
      have : '*' ∈ pattern := List.count_pos_iff.mp (by omega)
      simpa using this
    simp only [hne, if_false, hgg, hstar, if_true]
    have hlen : (splitChar '*' pattern).length = pattern.count '*' + 1 :=
      splitChar_length '*' pattern
    rcases hsp : splitChar '*' pattern with _ | ⟨x, _ | ⟨y, _ | ⟨z, t⟩⟩⟩ <;>
      rw [hsp] at hlen <;> simp only [List.length_cons, List.length_nil] at hlen
    · rfl
    · rfl
    · omega
    · rfl
  have hfalse : ∀ pattern path : List Char, 2 ≤ pattern.count '*' →
      containsSeq ['*', '*'] pattern = false → '*' ∉ path →
      glob_match pattern path = false := by
    intro pattern path hcount hgg hpath
    rw [hlit pattern path hcount hgg]
    have : pattern ≠ path := by
      intro h
      exact hpath (h ▸ List.count_pos_iff.mp (by omega))
    simpa using this
  refine ⟨hlit, hfalse, ?_, ?_⟩
  · intro pats path hall hpath
    rw [requires_human_review]
    simp only [List.any_eq_false]
    intro p hp
    rw [hfalse p path (hall p hp).1 (hall p hp).2 hpath]
    simp
  · intro perms path hdeny hallow hne hpath
    rw [can_change]
    have hmd : matches_any path perms.deny_change = false := by
      rw [matches_any]
      simp only [List.any_eq_false]
      intro p hp
      rw [hfalse p path (hdeny p hp).1 (hdeny p hp).2 hpath]
      simp
    have hma : matches_any path perms.allow_change = false := by
      rw [matches_any]
      simp only [List.any_eq_false]
      intro p hp
      rw [hfalse p path (hallow p hp).1 (hallow p hp).2 hpath]
      simp
    have hemp : perms.allow_change.isEmpty = false := by
      simpa [List.isEmpty_iff] using hne
    simp [hmd, hemp, hma]

/-- C10 witness: the pattern `a*b*c` matches neither `axbxc` nor anything
star-free, and allow/deny/review lists made of such patterns match
nothing. -/
theorem C10_multi_star_matches_nothing_witness :
    glob_match ['a', '*', 'b', '*', 'c'] ['a', 'x', 'b', 'x', 'c'] =
      (['a', '*', 'b', '*', 'c'] == ['a', 'x', 'b', 'x', 'c']) ∧
    glob_match ['a', '*', 'b', '*', 'c'] ['a', 'x', 'b', 'x', 'c'] = false ∧
    requires_human_review [['a', '*', 'b', '*', 'c']] ['a', 'x', 'b', 'x', 'c'] = false ∧
    can_change ⟨[['a', '*', 'b', '*', 'c']], [['x', '*', 'y', '*', 'z']], [], []⟩
      ['a', 'x', 'b', 'x', 'c'] = false :=
  ⟨C10_multi_star_matches_nothing.1 _ _ (by decide) (by decide),
   C10_multi_star_matches_nothing.2.1 _ _ (by decide) (by decide) (by decide),
   C10_multi_star_matches_nothing.2.2.1 _ _ (by decide) (by decide),
   C10_multi_star_matches_nothing.2.2.2 _ _ (by decide) (by decide) (by decide) (by decide)⟩

/-! ### The intent engine (src/repo.rs, `Repo::apply`)

jj-lib, the `patch` binary and `sh` are external collaborators of the
engine; their behaviour enters the model as oracle fields of `RepoState`
(the change/operation ids a transaction would assign, the conflict check
on the created change, the patch outcome, shell exit codes).  The engine
logic itself — gate order, state threading, result construction — is a
line-by-line embedding of `Repo::apply`. -/

/-- `InvariantTrigger` (src/manifest.rs). -/
inductive InvariantTrigger
  | PrePush
  | Pr
  | PreCommit
  | Always
deriving DecidableEq

/-- `Invariant` (src/manifest.rs): simple command or command plus trigger
list. -/
inductive Invariant
  | Simple (cmd : String)
  | Full (cmd : String) (on' : List InvariantTrigger)
deriving DecidableEq

def Invariant.command : Invariant → String
  | .Simple cmd => cmd
  | .Full cmd _ => cmd

def Invariant.triggers : Invariant → List InvariantTrigger
  | .Simple _ => []
  | .Full _ on' => on'

/-- `Invariant::should_run_on`: empty trigger set matches every trigger. -/
def Invariant.should_run_on (inv : Invariant) (trigger : InvariantTrigger) : Bool :=
  inv.triggers.isEmpty || inv.triggers.contains trigger

/-- The parts of `Manifest` (src/manifest.rs) the engine consults. -/
structure Manifest where
  invariants : List (String × Invariant)
  permissions : Permissions
  require_human : List (List Char)
deriving DecidableEq

/-- `Manifest::invariants_for`. -/
def Manifest.invariants_for (m : Manifest) (trigger : InvariantTrigger) :
    List (String × Invariant) :=
  m.invariants.filter fun ni => ni.2.should_run_on trigger

/-- `ChangeType` (src/change.rs). -/
inductive ChangeType
  | Behavioral
  | Refactor
  | Schema
  | Docs
  | Deps
  | Config
  | Test
deriving DecidableEq

/-- `FileOperation` (src/intent.rs). -/
inductive FileOperation
  | Create (path content : String)
  | Replace (path content : String)
  | Delete (path : String)
  | Rename (from' to' : String)
deriving DecidableEq

/-- `ChangeSpec` (src/intent.rs). -/
inductive ChangeSpec
  | Patch (content : String)
  | Files (operations : List FileOperation)
  | PatchFile (path : String)
deriving DecidableEq

/-- `Preconditions` (src/intent.rs); the Rust `HashMap`s become
association lists. -/
structure Preconditions where
  operation_id : Option String
  branch_at : List (String × String)
  file_hashes : List (String × String)
  files_exist : List String
  files_absent : List String
deriving DecidableEq

/-- `Intent` (src/intent.rs); `category` is not consulted by `apply` and
is omitted. -/
structure Intent where
  description : String
  change_type : ChangeType
  preconditions : Preconditions
  changes : ChangeSpec
  run_invariants : Bool
  breaking : Bool
deriving DecidableEq

/-- `InvariantStatus` (src/change.rs). -/
inductive InvariantStatus
  | Unknown
  | Passed
  | Failed
  | Skipped
deriving DecidableEq

/-- `ConflictDetail` (src/error.rs). -/
structure ConflictDetail where
  file : String
  ours : String
  theirs : String
  base : Option String
deriving DecidableEq

/-- `IntentResult` (src/intent.rs); invariant maps become association
lists. -/
inductive IntentResult
  | Success (change_id operation_id : String) (files_changed : List String)
      (invariants : List (String × InvariantStatus)) (pr_url : Option String)
  | PreconditionFailed (reason expected actual : String)
  | Conflict (change_id operation_id : String) (conflicts : List ConflictDetail)
      (rollback_command : String)
  | InvariantFailed (invariant command : String) (exit_code : Int)
      (stdout stderr : String) (change_id rollback_command : String)
  | PermissionDenied (action path rule : String)
  | RequiresReview (change_id : String) (paths : List String) (message : String)
deriving DecidableEq

/-- `IntentResult::rollback_command` (src/intent.rs:228-238). -/
def IntentResult.rollback_command : IntentResult → Option String
  | .Conflict _ _ _ rb => some rb
  | .InvariantFailed _ _ _ _ _ _ rb => some rb
  | _ => none

/-- `InvariantsResult` (src/change.rs). -/
structure InvariantsResult where
  checked : List String
  status : InvariantStatus
  details : List (String × InvariantStatus)
deriving DecidableEq

/-- The part of `TypedChange` (src/change.rs) written by the engine. -/
structure TypedChange where
  change_id : String
  change_type : ChangeType
  intent : String
  files : List String
  breaking : Bool
  invariants : InvariantsResult
deriving DecidableEq

/-- The engine-relevant error taxonomy (src/error.rs). -/
inductive EngineError
  | Io (message : String)
  | Repository (message : String)
deriving DecidableEq

/-- The repository as the engine sees it.  `ops` is the jj operation log,
newest first (`ops.headD ""` is the current operation id); `fs` is the
working copy as an association list; the remaining fields are oracles for
the external collaborators. -/
structure RepoState where
  ops : List String
  fs : List (String × String)
  branches : List (String × String)
  manifest : Option Manifest
  savedChanges : List TypedChange
  newChangeId : String
  newOpId : String
  hasConflictsOracle : Bool
  conflictsOracle : List ConflictDetail
  patchOk : Bool
  patchFs : List (String × String)
  shellExits : List (String × Int)
deriving DecidableEq

/-- `Repo::current_operation_id` (with Rust's `unwrap_or_default`). -/
def currentOperationId (s : RepoState) : String := s.ops.headD ""

/-- `Repo::has_manifest`. -/
def hasManifest (s : RepoState) : Bool := s.manifest.isSome

/-- ASCII lower-casing, the fragment of Rust `str::to_lowercase` relevant
to hex digests. -/
def asciiLower (c : Char) : Char :=
  if 65 ≤ c.toNat ∧ c.toNat ≤ 90 then Char.ofNat (c.toNat + 32) else c

def strLower (s : String) : String := ⟨s.data.map asciiLower⟩

/-- Rust `str::contains` on `String`s. -/
def containsSubstr (needle hay : String) : Bool := containsSeq needle.data hay.data

/-- The operation-id precondition (src/repo.rs:843-853). -/
def gateOpId (s : RepoState) (i : Intent) : Option IntentResult :=
  match i.preconditions.operation_id with
  | none => none
  | some expected =>
    let actual := currentOperationId s
    if actual = expected then none
    else some (.PreconditionFailed "operation ID mismatch" expected actual)

/-- The branch-position preconditions (src/repo.rs:855-875). -/
def gateBranches (s : RepoState) : List (String × String) → Option IntentResult
  | [] => none
  | (branch, expected) :: rest =>
    match List.lookup branch s.branches with
    | some actual =>
      if actual = expected then gateBranches s rest
      else some (.PreconditionFailed ("branch '" ++ branch ++ "' has moved") expected actual)
    | none =>
      some (.PreconditionFailed ("branch '" ++ branch ++ "' not found") expected "not found")

/-- The file-existence preconditions (src/repo.rs:877-887). -/
def gateExist (s : RepoState) : List String → Option IntentResult
  | [] => none
  | path :: rest =>
    if (List.lookup path s.fs).isSome then gateExist s rest
    else some (.PreconditionFailed ("file '" ++ path ++ "' does not exist") "exists" "not found")

/-- The file-absence preconditions (src/repo.rs:889-898). -/
def gateAbsent (s : RepoState) : List String → Option IntentResult
  | [] => none
  | path :: rest =>
    if (List.lookup path s.fs).isSome then
      some (.PreconditionFailed ("file '" ++ path ++ "' should not exist") "absent" "exists")
    else gateAbsent s rest

/-- The SHA-256 file-hash preconditions (src/repo.rs:900-934).  `hashFn`
abstracts `hex::encode(Sha256(..))`; a file present in `fs` is readable,
so Rust's separate read-error branch cannot fire in the model. -/
def gateHashes (hashFn : String → String) (s : RepoState) :
    List (String × String) → Option IntentResult
  | [] => none
  | (path, expected) :: rest =>
    match List.lookup path s.fs with
    | none =>
      some (.PreconditionFailed ("file '" ++ path ++ "' not found for hash check")
        expected "file not found")
    | some content =>
      let actual := hashFn content
      if actual = strLower expected then gateHashes hashFn s rest
      else some (.PreconditionFailed ("file '" ++ path ++ "' hash mismatch") expected actual)

/-- `Repo::check_preconditions` (src/repo.rs:838-937): the first failing
check wins; the order is operation id, branches, existence, absence,
hashes. -/
def check_preconditions (hashFn : String → String) (s : RepoState) (i : Intent) :
    Option IntentResult :=
  match gateOpId s i with
  | some r => some r
  | none =>
  match gateBranches s i.preconditions.branch_at with
  | some r => some r
  | none =>
  match gateExist s i.preconditions.files_exist with
  | some r => some r
  | none =>
  match gateAbsent s i.preconditions.files_absent with
  | some r => some r
  | none => gateHashes hashFn s i.preconditions.file_hashes

/-- `Repo::check_permissions` (src/repo.rs:941-972): only file-operation
specs enumerate paths; a rename contributes the compound path
`"from -> to"`. -/
def check_permissions (s : RepoState) (i : Intent) : Option IntentResult :=
  match s.manifest with
  | none => none
  | some m =>
    let files : List String :=
      match i.changes with
      | .Files operations =>
        operations.map fun op =>
          match op with
          | .Create p _ => p
          | .Replace p _ => p
          | .Delete p => p
          | .Rename f t => f ++ " -> " ++ t
      | _ => []
    match files.find? (fun f => !(can_change m.permissions f.toList)) with
    | some f => some (.PermissionDenied "change" f "deny_change or not in allow_change")
    | none => none

def fsRemove (k : String) (fs : List (String × String)) : List (String × String) :=
  fs.filter fun p => !(p.1 == k)

def fsSet (k v : String) (fs : List (String × String)) : List (String × String) :=
  (k, v) :: fsRemove k fs

/-- The file-operation loop of `Repo::apply_changes`
(src/repo.rs:1014-1048): create/replace write, delete removes (error when
missing), rename moves (error when missing) and records both endpoints. -/
def apply_file_operations (fs : List (String × String)) :
    List FileOperation → Except EngineError (List String × List (String × String))
  | [] => .ok ([], fs)
  | .Create p c :: rest =>
    match apply_file_operations (fsSet p c fs) rest with
    | .ok (files, fs') => .ok (p :: files, fs')
    | .error e => .error e
  | .Replace p c :: rest =>
    match apply_file_operations (fsSet p c fs) rest with
    | .ok (files, fs') => .ok (p :: files, fs')
    | .error e => .error e
  | .Delete p :: rest =>
    if (List.lookup p fs).isSome then
      match apply_file_operations (fsRemove p fs) rest with
      | .ok (files, fs') => .ok (p :: files, fs')
      | .error e => .error e
    else .error (.Io ("cannot remove '" ++ p ++ "'"))
  | .Rename f t :: rest =>
    match List.lookup f fs with
    | some c =>
      match apply_file_operations (fsSet t c (fsRemove f fs)) rest with
      | .ok (files, fs') => .ok (f :: t :: files, fs')
      | .error e => .error e
    | none => .error (.Io ("cannot rename '" ++ f ++ "'"))

/-- `Repo::apply_changes` (src/repo.rs:975-1050).  A patch runs the
external `patch` binary (oracle `patchOk` / `patchFs`) and returns an
empty file list (src/repo.rs:1005-1006); a patch file is read and applied
the same way; file operations are applied in order. -/
def apply_changes (s : RepoState) :
    ChangeSpec → Except EngineError (List String × List (String × String))
  | .Patch _ =>
    if s.patchOk then .ok ([], s.patchFs) else .error (.Repository "patch failed")
  | .PatchFile path =>
    match List.lookup path s.fs with
    | some _ =>
      if s.patchOk then .ok ([], s.patchFs) else .error (.Repository "patch failed")
    | none => .error (.Io ("cannot read '" ++ path ++ "'"))
  | .Files operations => apply_file_operations s.fs operations

/-- Exit code of a shell invariant command (oracle; unlisted commands
exit 0). -/
def shellExit (s : RepoState) (cmd : String) : Int :=
  (List.lookup cmd s.shellExits).getD 0

/-- The loop of `Repo::run_invariants` (src/repo.rs:1066-1098): a zero
exit records `Passed`, a non-zero exit aborts with the failure tuple. -/
def run_invariants_go (s : RepoState) :
    List (String × Invariant) →
      Except (String × String × Int × String × String) (List (String × InvariantStatus))
  | [] => .ok []
  | (name, inv) :: rest =>
    let cmd := inv.command
    if shellExit s cmd = 0 then
      match run_invariants_go s rest with
      | .ok results => .ok ((name, InvariantStatus.Passed) :: results)
      | .error e => .error e
    else .error (name, cmd, shellExit s cmd, "", "")

/-- `Repo::run_invariants` (src/repo.rs:1054-1101). -/
def run_invariants (s : RepoState) (trigger : InvariantTrigger) :
    Except (String × String × Int × String × String) (List (String × InvariantStatus)) :=
  match s.manifest with
  | none => .ok []
  | some m => run_invariants_go s (m.invariants_for trigger)

/-- `Repo::get_previous_op_id` (src/repo.rs:1104-1120): the first parent
of the current operation, or the current operation when it has no
parent. -/
def get_previous_op_id (s : RepoState) : String :=
  match s.ops with
  | [] => ""
  | [o] => o
  | _ :: p :: _ => p

/-- `Repo::create_new_change` (src/repo.rs:720-789): one committed jj
transaction; the assigned change/operation ids come from the oracle and
the new operation becomes the head of the operation log. -/
def create_new_change (s : RepoState) : (String × String) × RepoState :=
  ((s.newChangeId, s.newOpId), { s with ops := s.newOpId :: s.ops })

/-- The aggregate invariant status written by `Repo::apply`
(src/repo.rs:701-705): `Passed` iff every recorded status is `Passed`
(vacuously `Passed` on an empty record), else `Failed`. -/
def apply_invariant_status (invariants : List (String × InvariantStatus)) : InvariantStatus :=
  if invariants.all (fun kv => kv.2 == InvariantStatus.Passed) then .Passed else .Failed

/-- The aggregate invariant status written by `Repo::commit_working_copy`
(src/repo.rs:1898-1908): `Skipped` when none ran, else `Passed` iff all
passed, else `Failed`. -/
def commit_invariant_status (invariants : List (String × InvariantStatus)) : InvariantStatus :=
  if invariants.isEmpty then .Skipped
  else if invariants.all (fun kv => kv.2 == InvariantStatus.Passed) then .Passed
  else .Failed

/-- Steps 7–8 of `Repo::apply` (src/repo.rs:668-716): run pre-commit
invariants (when requested and a manifest exists), then write the
`TypedChange` record and return `Success`. -/
def apply_finalize (s2 : RepoState) (i : Intent) (change_id operation_id : String)
    (files_changed : List String) : Except EngineError (IntentResult × RepoState) :=
  match (if i.run_invariants && hasManifest s2 then
          run_invariants s2 .PreCommit
         else .ok []) with
  | .error (name, cmd, code, out, err) =>
    .ok (.InvariantFailed name cmd code out err change_id
      ("jj op restore " ++ get_previous_op_id s2), s2)
  | .ok invariants =>
    let tc : TypedChange :=
      { change_id := change_id
        change_type := i.change_type
        intent := i.description
        files := files_changed
        breaking := i.breaking
        invariants :=
          { checked := invariants.map (·.1)
            status := apply_invariant_status invariants
            details := invariants } }
    let s3 := { s2 with savedChanges := s2.savedChanges ++ [tc] }
    .ok (.Success change_id operation_id files_changed invariants none, s3)


/-- Steps 5–6 of `Repo::apply` (src/repo.rs:638-666): conflict check on
the fresh change, then the human-review gate, then finalize. -/
def apply_materialize (s2 : RepoState) (i : Intent) (change_id operation_id : String)
    (files_changed : List String) : Except EngineError (IntentResult × RepoState) :=
  if s2.hasConflictsOracle then
    .ok (.Conflict change_id operation_id s2.conflictsOracle
      ("jj op restore " ++ get_previous_op_id s2), s2)
  else
    match s2.manifest with
    | some m =>
      let review_paths :=
        files_changed.filter fun f => requires_human_review m.require_human f.toList
      if review_paths.isEmpty then
        apply_finalize s2 i change_id operation_id files_changed
      else
        .ok (.RequiresReview change_id review_paths
          "These paths require human review before merge", s2)
    | none => apply_finalize s2 i change_id operation_id files_changed

/-- Step 4 of `Repo::apply` (src/repo.rs:629-636): apply the change spec
to the filesystem (propagating its error) and continue. -/
def apply_after_stage (s1 : RepoState) (i : Intent) (change_id operation_id : String) :
    Except EngineError (IntentResult × RepoState) :=
  match apply_changes s1 i.changes with
  | .error e => .error e
  | .ok (files_changed, fs') =>
    apply_materialize { s1 with fs := fs' } i change_id operation_id files_changed

/-- `Repo::apply` (src/repo.rs:611-717): preconditions, permissions (only
when a manifest exists), create the empty change, then stage, materialize
and finalize. -/
def Repo.apply (hashFn : String → String) (s : RepoState) (i : Intent) :
    Except EngineError (IntentResult × RepoState) :=
  match check_preconditions hashFn s i with
  | some r => .ok (r, s)
  | none =>
  match (if hasManifest s then check_permissions s i else none) with
  | some r => .ok (r, s)
  | none =>
    apply_after_stage (create_new_change s).2 i
      (create_new_change s).1.1 (create_new_change s).1.2

def IntentResult.isPreconditionFailed : IntentResult → Bool
  | .PreconditionFailed _ _ _ => true
  | _ => false

def IntentResult.isPermissionDenied : IntentResult → Bool
  | .PermissionDenied _ _ _ => true
  | _ => false

theorem apply_finalize_shape {s2 : RepoState} {i : Intent} {cid oid : String}
    {files : List String} {r : IntentResult} {s' : RepoState}
    (h : apply_finalize s2 i cid oid files = .ok (r, s')) :
    (∃ n c code out err rb, r = .InvariantFailed n c code out err cid rb ∧
      rb = "jj op restore " ++ get_previous_op_id s2) ∨
    (∃ invs, r = .Success cid oid files invs none) := by
  rw [apply_finalize] at h
  split at h
  · simp only [Except.ok.injEq, Prod.mk.injEq] at h
    exact Or.inl ⟨_, _, _, _, _, _, h.1.symm, rfl⟩
  · simp only [Except.ok.injEq, Prod.mk.injEq] at h
    exact Or.inr ⟨_, h.1.symm⟩

theorem apply_materialize_shape {s2 : RepoState} {i : Intent} {cid oid : String}
    {files : List String} {r : IntentResult} {s' : RepoState}
    (h : apply_materialize s2 i cid oid files = .ok (r, s')) :
    (∃ conf rb, r = .Conflict cid oid conf rb ∧
      rb = "jj op restore " ++ get_previous_op_id s2) ∨
    (∃ paths msg, r = .RequiresReview cid paths msg) ∨
    (∃ n c code out err rb, r = .InvariantFailed n c code out err cid rb ∧
      rb = "jj op restore " ++ get_previous_op_id s2) ∨
    (∃ invs, r = .Success cid oid files invs none) := by
  rw [apply_materialize] at h
  split at h
  · simp only [Except.ok.injEq, Prod.mk.injEq] at h
    exact Or.inl ⟨_, _, h.1.symm, rfl⟩
  · split at h
    · dsimp only at h
      split at h
      · rcases apply_finalize_shape h with h1 | h1
        · exact Or.inr (Or.inr (Or.inl h1))
        · exact Or.inr (Or.inr (Or.inr h1))
      · simp only [Except.ok.injEq, Prod.mk.injEq] at h
        exact Or.inr (Or.inl ⟨_, _, h.1.symm⟩)
    · rcases apply_finalize_shape h with h1 | h1
      · exact Or.inr (Or.inr (Or.inl h1))
      · exact Or.inr (Or.inr (Or.inr h1))

theorem apply_after_stage_shape {s1 : RepoState} {i : Intent} {cid oid : String}
    {r : IntentResult} {s' : RepoState}
    (h : apply_after_stage s1 i cid oid = .ok (r, s')) :
    (∃ conf rb, r = .Conflict cid oid conf rb ∧
      rb = "jj op restore " ++ get_previous_op_id s1) ∨
    (∃ paths msg, r = .RequiresReview cid paths msg) ∨
    (∃ n c code out err rb, r = .InvariantFailed n c code out err cid rb ∧
      rb = "jj op restore " ++ get_previous_op_id s1) ∨
    (∃ files invs fs', apply_changes s1 i.changes = .ok (files, fs') ∧
      r = .Success cid oid files invs none) := by
  rw [apply_after_stage] at h
  split at h
  · exact Except.noConfusion h
  · rename_i files fs' heq
    have hops : get_previous_op_id { s1 with fs := fs' } = get_previous_op_id s1 := rfl
    rcases apply_materialize_shape h with h1 | h1 | h1 | h1
    · rw [hops] at h1
      exact Or.inl h1
    · exact Or.inr (Or.inl h1)
    · rw [hops] at h1
      exact Or.inr (Or.inr (Or.inl h1))
    · rcases h1 with ⟨invs, hr⟩
      exact Or.inr (Or.inr (Or.inr ⟨files, invs, fs', heq, hr⟩))

/-- C1: whenever `Repo::apply` returns `PreconditionFailed` or
`PermissionDenied`, both gates ran before the first VCS mutation: the
returned state is exactly the pre-call state, so the operation id is
unchanged and no change was created. -/
theorem C1_no_change_on_denial (hashFn : String → String) (s : RepoState) (i : Intent)
    (r : IntentResult) (s' : RepoState)
    (happly : Repo.apply hashFn s i = .ok (r, s'))
    (hr : r.isPreconditionFailed = true ∨ r.isPermissionDenied = true) :
    s' = s ∧ currentOperationId s' = currentOperationId s ∧
      s'.savedChanges = s.savedChanges := by
  rw [Repo.apply] at happly
  split at happly
  · simp only [Except.ok.injEq, Prod.mk.injEq] at happly
    exact ⟨happly.2.symm, by rw [happly.2], by rw [happly.2]⟩
  · split at happly
    · simp only [Except.ok.injEq, Prod.mk.injEq] at happly
      exact ⟨happly.2.symm, by rw [happly.2], by rw [happly.2]⟩
    · exfalso
      rcases apply_after_stage_shape happly with ⟨_, _, hr1, _⟩ | ⟨_, _, hr1⟩ |
          ⟨_, _, _, _, _, _, hr1, _⟩ | ⟨_, _, _, _, hr1⟩ <;>
        (subst hr1; rcases hr with hr | hr <;>
          simp [IntentResult.isPreconditionFailed, IntentResult.isPermissionDenied] at hr)

theorem gateOpId_shape {s : RepoState} {i : Intent} {r : IntentResult}
    (h : gateOpId s i = some r) : r.isPreconditionFailed = true := by
  rw [gateOpId] at h
  split at h
  · exact Option.noConfusion h
  · dsimp only at h
    split at h
    · exact Option.noConfusion h
    · cases h
      rfl

theorem gateBranches_shape {s : RepoState} {l : List (String × String)} {r : IntentResult}
    (h : gateBranches s l = some r) : r.isPreconditionFailed = true := by
  induction l with
  | nil => exact Option.noConfusion h
  | cons be rest ih =>
    obtain ⟨branch, expected⟩ := be
    rw [gateBranches] at h
    split at h
    · split at h
      · exact ih h
      · cases h
        rfl
    · cases h
      rfl

theorem gateExist_shape {s : RepoState} {l : List String} {r : IntentResult}
    (h : gateExist s l = some r) : r.isPreconditionFailed = true := by
  induction l with
  | nil => exact Option.noConfusion h
  | cons p rest ih =>
    rw [gateExist] at h
    split at h
    · exact ih h
    · cases h
      rfl

theorem gateAbsent_shape {s : RepoState} {l : List String} {r : IntentResult}
    (h : gateAbsent s l = some r) : r.isPreconditionFailed = true := by
  induction l with
  | nil => exact Option.noConfusion h
  | cons p rest ih =>
    rw [gateAbsent] at h
    split at h
    · cases h
      rfl
    · exact ih h

theorem gateHashes_shape {hashFn : String → String} {s : RepoState}
    {l : List (String × String)} {r : IntentResult}
    (h : gateHashes hashFn s l = some r) : r.isPreconditionFailed = true := by
  induction l with
  | nil => exact Option.noConfusion h
  | cons pe rest ih =>
    obtain ⟨path, expected⟩ := pe
    rw [gateHashes] at h
    split at h
    · cases h
      rfl
    · dsimp only at h
      split at h
      · exact ih h
      · cases h
        rfl

theorem check_preconditions_shape {hashFn : String → String} {s : RepoState} {i : Intent}
    {r : IntentResult} (h : check_preconditions hashFn s i = some r) :
    r.isPreconditionFailed = true := by
  rw [check_preconditions] at h
  split at h
  · cases h
    exact gateOpId_shape (by assumption)
  · split at h
    · cases h
      exact gateBranches_shape (by assumption)
    · split at h
      · cases h
        exact gateExist_shape (by assumption)
      · split at h
        · cases h
          exact gateAbsent_shape (by assumption)
        · exact gateHashes_shape h

theorem check_permissions_shape {s : RepoState} {i : Intent} {r : IntentResult}
    (h : check_permissions s i = some r) : r.isPermissionDenied = true := by
  rw [check_permissions] at h
  split at h
  · exact Option.noConfusion h
  · dsimp only at h
    split at h
    · cases h
      rfl
    · exact Option.noConfusion h

theorem get_previous_op_id_create {s : RepoState} (hops : s.ops ≠ []) :
    get_previous_op_id (create_new_change s).2 = currentOperationId s := by
  rcases hs : s.ops with _ | ⟨h0, t⟩
  · exact absurd hs hops
  · show get_previous_op_id { s with ops := s.newOpId :: s.ops } = _
    rw [get_previous_op_id, currentOperationId, hs]
    rfl

/-- C3: whenever `Repo::apply` produces a result carrying a rollback
command (`Conflict` or `InvariantFailed`), that command is
`"jj op restore <prev_op_id>"` where `<prev_op_id>` is the operation id
current before the engine's first VCS mutation. -/
theorem C3_rollback_command (hashFn : String → String) (s : RepoState) (i : Intent)
    (r : IntentResult) (s' : RepoState) (rb : String)
    (hops : s.ops ≠ [])
    (happly : Repo.apply hashFn s i = .ok (r, s'))
    (hrb : r.rollback_command = some rb) :
    rb = "jj op restore " ++ currentOperationId s := by
  rw [Repo.apply] at happly
  split at happly
  · exfalso
    rename_i r0 heq
    simp only [Except.ok.injEq, Prod.mk.injEq] at happly
    rw [← happly.1] at hrb
    have := check_preconditions_shape heq
    rcases r0 with _ | _ | _ | _ | _ | _ <;>
      simp [IntentResult.isPreconditionFailed] at this <;>
      exact Option.noConfusion hrb
  · split at happly
    · exfalso
      rename_i r0 heq
      simp only [Except.ok.injEq, Prod.mk.injEq] at happly
      rw [← happly.1] at hrb
      have hperm : check_permissions s i = some r0 := by
        by_cases hm : hasManifest s = true
        · rwa [if_pos hm] at heq
        · rw [if_neg hm] at heq
          exact Option.noConfusion heq
      have := check_permissions_shape hperm
      rcases r0 with _ | _ | _ | _ | _ | _ <;>
        simp [IntentResult.isPermissionDenied] at this <;>
        exact Option.noConfusion hrb
    · rcases apply_after_stage_shape happly with ⟨conf, rb1, hr1, hrb1⟩ | ⟨paths, msg, hr1⟩ |
        ⟨n, c, code, out, err, rb1, hr1, hrb1⟩ | ⟨files, invs, fs', _, hr1⟩ <;> subst hr1
      · rw [IntentResult.rollback_command] at hrb
        cases hrb
        rw [hrb1, get_previous_op_id_create hops]
      · exact Option.noConfusion hrb
      · rw [IntentResult.rollback_command] at hrb
        cases hrb
        rw [hrb1, get_previous_op_id_create hops]
      · exact Option.noConfusion hrb

theorem apply_file_operations_nil_iff {fs : List (String × String)}
    {ops : List FileOperation} {files : List String} {fs' : List (String × String)}
    (h : apply_file_operations fs ops = .ok (files, fs')) :
    files = [] ↔ ops = [] := by
  induction ops generalizing fs files fs' with
  | nil =>
    rw [apply_file_operations] at h
    simp only [Except.ok.injEq, Prod.mk.injEq] at h
    simp [← h.1]
  | cons op rest ih =>
    rcases op with ⟨p, c⟩ | ⟨p, c⟩ | ⟨p⟩ | ⟨f, t⟩ <;> rw [apply_file_operations] at h <;>
      (repeat' split at h) <;>
      first
        | exact Except.noConfusion h
        | (simp only [Except.ok.injEq, Prod.mk.injEq] at h
           simp [← h.1])

theorem apply_changes_patch_empty {s : RepoState} {content : String}
    {files : List String} {fs' : List (String × String)}
    (h : apply_changes s (.Patch content) = .ok (files, fs')) : files = [] := by
  rw [apply_changes] at h
  split at h
  · simp only [Except.ok.injEq, Prod.mk.injEq] at h
    exact h.1.symm
  · exact Except.noConfusion h

theorem apply_changes_patchfile_empty {s : RepoState} {path : String}
    {files : List String} {fs' : List (String × String)}
    (h : apply_changes s (.PatchFile path) = .ok (files, fs')) : files = [] := by
  rw [apply_changes] at h
  split at h
  · split at h
    · simp only [Except.ok.injEq, Prod.mk.injEq] at h
      exact h.1.symm
    · exact Except.noConfusion h
  · exact Except.noConfusion h

theorem apply_success_files {hashFn : String → String} {s : RepoState} {i : Intent}
    {cid oid : String} {files : List String} {invs : List (String × InvariantStatus)}
    {pr : Option String} {s' : RepoState}
    (happly : Repo.apply hashFn s i = .ok (.Success cid oid files invs pr, s')) :
    ∃ fs', apply_changes (create_new_change s).2 i.changes = .ok (files, fs') := by
  rw [Repo.apply] at happly
  split at happly
  · exfalso
    rename_i r0 heq
    simp only [Except.ok.injEq, Prod.mk.injEq] at happly
    have := check_preconditions_shape heq
    rw [happly.1] at this
    simp [IntentResult.isPreconditionFailed] at this
  · split at happly
    · exfalso
      rename_i r0 heq
      simp only [Except.ok.injEq, Prod.mk.injEq] at happly
      have hperm : check_permissions s i = some r0 := by
        by_cases hm : hasManifest s = true
        · rwa [if_pos hm] at heq
        · rw [if_neg hm] at heq
          exact Option.noConfusion heq
      have := check_permissions_shape hperm
      rw [happly.1] at this
      simp [IntentResult.isPermissionDenied] at this
    · rcases apply_after_stage_shape happly with ⟨conf, rb1, hr1, _⟩ | ⟨paths, msg, hr1⟩ |
        ⟨n, c, code, out, err, rb1, hr1, _⟩ | ⟨files0, invs0, fs', hch, hr1⟩
      · exact IntentResult.noConfusion hr1
      · exact IntentResult.noConfusion hr1
      · exact IntentResult.noConfusion hr1
      · obtain ⟨_, _, hfiles, _, _⟩ := IntentResult.Success.inj hr1
        exact ⟨fs', hfiles ▸ hch⟩

/-- C4 (amended): for a Success result, `files_changed` is the output of
`apply_changes`: non-empty exactly when a file-operations spec has at
least one operation, and always empty for patch-based specs — even when
the patch modified files. -/
theorem C4_files_changed_amended (hashFn : String → String) (s : RepoState) (i : Intent)
    (cid oid : String) (files : List String) (invs : List (String × InvariantStatus))
    (pr : Option String) (s' : RepoState)
    (happly : Repo.apply hashFn s i = .ok (.Success cid oid files invs pr, s')) :
    (∀ ops, i.changes = .Files ops → (files = [] ↔ ops = [])) ∧
    (∀ content, i.changes = .Patch content → files = []) ∧
    (∀ path, i.changes = .PatchFile path → files = []) := by
  obtain ⟨fs', hch⟩ := apply_success_files happly
  refine ⟨?_, ?_, ?_⟩
  · intro ops hops
    rw [hops] at hch
    rw [apply_changes] at hch
    exact apply_file_operations_nil_iff hch
  · intro content hc
    rw [hc] at hch
    exact apply_changes_patch_empty hch
  · intro path hp
    rw [hp] at hch
    exact apply_changes_patchfile_empty hch

/-! Concrete engine scenarios used as witnesses and counterexamples. -/

def emptyPreconditions : Preconditions :=
  { operation_id := none, branch_at := [], file_hashes := [],
    files_exist := [], files_absent := [] }

def engineBaseState : RepoState :=
  { ops := ["op0"]
    fs := [("a.txt", "old")]
    branches := [("main", "c0")]
    manifest := none
    savedChanges := []
    newChangeId := "chg1"
    newOpId := "op1"
    hasConflictsOracle := false
    conflictsOracle := []
    patchOk := true
    patchFs := [("a.txt", "new")]
    shellExits := [] }

def patchIntent : Intent :=
  { description := "patch it", change_type := .Behavioral,
    preconditions := emptyPreconditions, changes := .Patch "diff",
    run_invariants := true, breaking := false }

def noInvIntent : Intent :=
  { description := "create b", change_type := .Config,
    preconditions := emptyPreconditions,
    changes := .Files [.Create "b.txt" "hi"],
    run_invariants := false, breaking := false }

def opIdIntent : Intent :=
  { description := "guarded", change_type := .Docs,
    preconditions := { emptyPreconditions with operation_id := some "opX" },
    changes := .Files [], run_invariants := true, breaking := false }

/-- C4 counterexample: a patch spec that rewrites `a.txt` (the working
copy contents change, so the spec is not a no-op) still yields `Success`
with an empty `files_changed` list. -/
theorem C4_counterexample :
    (Repo.apply (fun _ => "") engineBaseState patchIntent).map
        (fun rs => (rs.1, rs.2.fs)) =
      .ok (.Success "chg1" "op1" [] [] none, [("a.txt", "new")]) ∧
    engineBaseState.fs ≠ [("a.txt", "new")] := by
  refine ⟨rfl, by decide⟩

theorem run_invariants_go_passed {s : RepoState} {l : List (String × Invariant)}
    {results : List (String × InvariantStatus)}
    (h : run_invariants_go s l = .ok results) :
    ∀ kv ∈ results, kv.2 = InvariantStatus.Passed := by
  induction l generalizing results with
  | nil =>
    rw [run_invariants_go] at h
    simp only [Except.ok.injEq] at h
    simp [← h]
  | cons ni rest ih =>
    obtain ⟨name, inv⟩ := ni
    rw [run_invariants_go] at h
    split at h
    · split at h
      · rename_i results0 heq
        simp only [Except.ok.injEq] at h
        intro kv hkv
        rw [← h] at hkv
        rcases List.mem_cons.mp hkv with hkv | hkv
        · rw [hkv]
        · exact ih heq kv hkv
      · exact Except.noConfusion h
    · exact Except.noConfusion h

theorem run_invariants_passed {s : RepoState} {t : InvariantTrigger}
    {results : List (String × InvariantStatus)}
    (h : run_invariants s t = .ok results) :
    ∀ kv ∈ results, kv.2 = InvariantStatus.Passed := by
  rw [run_invariants] at h
  split at h
  · simp only [Except.ok.injEq] at h
    simp [← h]
  · exact run_invariants_go_passed h

theorem apply_finalize_success {s2 : RepoState} {i : Intent} {cid oid : String}
    {files : List String} {cid2 oid2 : String} {files2 : List String}
    {invs : List (String × InvariantStatus)} {pr : Option String} {s' : RepoState}
    (h : apply_finalize s2 i cid oid files = .ok (.Success cid2 oid2 files2 invs pr, s')) :
    s'.savedChanges = s2.savedChanges ++
      [{ change_id := cid, change_type := i.change_type, intent := i.description,
         files := files, breaking := i.breaking,
         invariants := { checked := invs.map (·.1),
                         status := apply_invariant_status invs,
                         details := invs } }] ∧
    (∀ kv ∈ invs, kv.2 = InvariantStatus.Passed) := by
  rw [apply_finalize] at h
  split at h
  · simp at h
  · rename_i invs0 heq
    simp only [Except.ok.injEq, Prod.mk.injEq, IntentResult.Success.injEq] at h
    obtain ⟨⟨_, _, _, hinvs, _⟩, hs⟩ := h
    subst hinvs
    constructor
    · rw [← hs]
    · intro kv hkv
      by_cases hb : (i.run_invariants && hasManifest s2) = true
      · rw [if_pos hb] at heq
        exact run_invariants_passed heq kv hkv
      · rw [if_neg hb] at heq
        simp only [Except.ok.injEq] at heq
        rw [← heq] at hkv
        cases hkv

/-- C2 (amended): every `Repo::apply` run that reaches Finalize records an
aggregate invariant status of `Passed` — including vacuously when no
invariant ran — because a failing invariant aborts before Finalize; the
engine's `apply` path never writes `Skipped`.  The three-way
Passed/Failed/Skipped aggregate of the claim is implemented only by
`Repo::commit_working_copy`. -/
theorem C2_invariant_status_amended (hashFn : String → String) (s : RepoState) (i : Intent)
    (cid oid : String) (files : List String) (invs : List (String × InvariantStatus))
    (pr : Option String) (s' : RepoState)
    (happly : Repo.apply hashFn s i = .ok (.Success cid oid files invs pr, s')) :
    (∃ tc : TypedChange, s'.savedChanges = s.savedChanges ++ [tc] ∧
      tc.invariants.status = apply_invariant_status invs ∧
      tc.invariants.status = InvariantStatus.Passed ∧
      tc.invariants.details = invs) ∧
    (∀ kv ∈ invs, kv.2 = InvariantStatus.Passed) ∧
    commit_invariant_status [] = InvariantStatus.Skipped := by
  rw [Repo.apply] at happly
  split at happly
  · exfalso
    rename_i r0 heq
    simp only [Except.ok.injEq, Prod.mk.injEq] at happly
    have := check_preconditions_shape heq
    rw [happly.1] at this
    simp [IntentResult.isPreconditionFailed] at this
  · split at happly
    · exfalso
      rename_i r0 heq
      simp only [Except.ok.injEq, Prod.mk.injEq] at happly
      have hperm : check_permissions s i = some r0 := by
        by_cases hm : hasManifest s = true
        · rwa [if_pos hm] at heq
        · rw [if_neg hm] at heq
          exact Option.noConfusion heq
      have := check_permissions_shape hperm
      rw [happly.1] at this
      simp [IntentResult.isPermissionDenied] at this
    · rw [apply_after_stage] at happly
      split at happly
      · exact Except.noConfusion happly
      · rename_i files0 fs' heq
        rw [apply_materialize] at happly
        split at happly
        · simp at happly
        · have hfin : ∀ s2 : RepoState, s2.savedChanges = s.savedChanges →
              apply_finalize s2 i (create_new_change s).1.1 (create_new_change s).1.2 files0 =
                .ok (.Success cid oid files invs pr, s') →
              (∃ tc : TypedChange, s'.savedChanges = s.savedChanges ++ [tc] ∧
                tc.invariants.status = apply_invariant_status invs ∧
                tc.invariants.status = InvariantStatus.Passed ∧
                tc.invariants.details = invs) ∧
              (∀ kv ∈ invs, kv.2 = InvariantStatus.Passed) ∧
              commit_invariant_status [] = InvariantStatus.Skipped := by
            intro s2 hsc hfin
            obtain ⟨hsaved, hpassed⟩ := apply_finalize_success hfin
            have hstat : apply_invariant_status invs = InvariantStatus.Passed := by
              rw [apply_invariant_status, if_pos]
              rw [List.all_eq_true]
              intro kv hkv
              simp [hpassed kv hkv]
            refine ⟨⟨_, by rw [hsaved, hsc], rfl, hstat, rfl⟩, hpassed, rfl⟩
          split at happly
          · dsimp only at happly
            split at happly
            · refine hfin _ ?_ happly
              rfl
            · simp at happly
          · refine hfin _ ?_ happly
            rfl

/-- C2 counterexample: an `apply` run where no invariant executed
(`run_invariants = false`) writes aggregate status `Passed`, not the
`Skipped` the claim requires. -/
theorem C2_counterexample :
    (Repo.apply (fun _ => "") engineBaseState noInvIntent).map
        (fun rs => rs.2.savedChanges.map fun tc => tc.invariants.status) =
      .ok [InvariantStatus.Passed] ∧
    InvariantStatus.Passed ≠ InvariantStatus.Skipped :=
  ⟨rfl, by decide⟩

def conflictState : RepoState := { engineBaseState with hasConflictsOracle := true }

def createRecord : TypedChange :=
  { change_id := "chg1", change_type := .Config, intent := "create b",
    files := ["b.txt"], breaking := false,
    invariants := { checked := [], status := .Passed, details := [] } }

def createdState : RepoState :=
  { engineBaseState with
    ops := ["op1", "op0"]
    fs := [("b.txt", "hi"), ("a.txt", "old")]
    savedChanges := [createRecord] }

/-- C1 witness: a failing operation-id precondition leaves the state
untouched. -/
theorem C1_no_change_on_denial_witness :
    Repo.apply (fun _ => "") engineBaseState opIdIntent =
      .ok (.PreconditionFailed "operation ID mismatch" "opX" "op0", engineBaseState) ∧
    (engineBaseState = engineBaseState ∧
      currentOperationId engineBaseState = currentOperationId engineBaseState ∧
      engineBaseState.savedChanges = engineBaseState.savedChanges) :=
  ⟨rfl, C1_no_change_on_denial (fun _ => "") engineBaseState opIdIntent _ _ rfl (Or.inl rfl)⟩

/-- C3 witness: a conflicting change yields the rollback command naming
the pre-engine operation id `op0`. -/
theorem C3_rollback_command_witness :
    ("jj op restore op0" : String) = "jj op restore " ++ currentOperationId conflictState :=
  C3_rollback_command (fun _ => "") conflictState patchIntent
    (.Conflict "chg1" "op1" [] "jj op restore op0")
    { conflictState with ops := ["op1", "op0"], fs := [("a.txt", "new")] }
    "jj op restore op0" (by decide) rfl rfl

/-- C4 witness: a one-operation file spec yields a non-empty
`files_changed`. -/
theorem C4_files_changed_amended_witness :
    (["b.txt"] = ([] : List String) ↔
      [FileOperation.Create "b.txt" "hi"] = ([] : List FileOperation)) :=
  (C4_files_changed_amended (fun _ => "") engineBaseState noInvIntent
    "chg1" "op1" ["b.txt"] [] none createdState (by rfl)).1 _ rfl

/-- C2 witness: the amended statement at the concrete no-invariant run. -/
theorem C2_invariant_status_amended_witness :
    (∃ tc : TypedChange, createdState.savedChanges = engineBaseState.savedChanges ++ [tc] ∧
      tc.invariants.status = apply_invariant_status [] ∧
      tc.invariants.status = InvariantStatus.Passed ∧
      tc.invariants.details = []) ∧
    (∀ kv ∈ ([] : List (String × InvariantStatus)), kv.2 = InvariantStatus.Passed) ∧
    commit_invariant_status [] = InvariantStatus.Skipped :=
  C2_invariant_status_amended (fun _ => "") engineBaseState noInvIntent
    "chg1" "op1" ["b.txt"] [] none createdState (by rfl)

/-- An intent whose only precondition is a single file-hash check. -/
def hashOnlyIntent (p e : String) : Intent :=
  { description := "hash gated", change_type := .Docs,
    preconditions := { operation_id := none, branch_at := [], file_hashes := [(p, e)],
                       files_exist := [], files_absent := [] },
    changes := .Files [], run_invariants := true, breaking := false }

/-- The observable part of a precondition-gate outcome: the reason and
actual fields of a failure (the expected field echoes the input
verbatim). -/
def gateView : Option IntentResult → Option (String × String)
  | some (.PreconditionFailed reason _ actual) => some (reason, actual)
  | _ => none

theorem check_preconditions_hashOnly (hashFn : String → String) (s : RepoState)
    (p e : String) :
    check_preconditions hashFn s (hashOnlyIntent p e) = gateHashes hashFn s [(p, e)] := rfl

theorem containsSubstr_append_left (pre : String) {n suf : String}
    (h : n.data <:+: suf.data) :
    containsSubstr n (pre ++ suf) = true := by
  apply containsSeq_of_infix
  have hs : suf.data <:+ (pre ++ suf).data := by
    rw [String.data_append]
    exact List.suffix_append pre.data suf.data
  exact h.trans hs.isInfix

/-- C6: the file-hash gate is case-insensitive in the expected digest (two
expected strings with the same lowercase form gate identically — in
particular an uppercase digest gates like its lowercase form); a mismatch
yields `PreconditionFailed` whose reason contains "hash mismatch"; a
missing file yields `PreconditionFailed` whose reason contains
"not found". -/
theorem C6_file_hash_gate (hashFn : String → String) (s : RepoState) (p E F : String) :
    (strLower E = strLower F →
      gateView (check_preconditions hashFn s (hashOnlyIntent p E)) =
        gateView (check_preconditions hashFn s (hashOnlyIntent p F)) ∧
      (check_preconditions hashFn s (hashOnlyIntent p E)).isNone =
        (check_preconditions hashFn s (hashOnlyIntent p F)).isNone) ∧
    (∀ content, List.lookup p s.fs = some content → hashFn content ≠ strLower E →
      check_preconditions hashFn s (hashOnlyIntent p E) =
        some (.PreconditionFailed ("file '" ++ p ++ "' hash mismatch") E (hashFn content)) ∧
      containsSubstr "hash mismatch" ("file '" ++ p ++ "' hash mismatch") = true) ∧
    (List.lookup p s.fs = none →
      check_preconditions hashFn s (hashOnlyIntent p E) =
        some (.PreconditionFailed ("file '" ++ p ++ "' not found for hash check") E
          "file not found") ∧
      containsSubstr "not found" ("file '" ++ p ++ "' not found for hash check") = true) := by
  refine ⟨?_, ?_, ?_⟩
  · intro hlow
    rw [check_preconditions_hashOnly, check_preconditions_hashOnly]
    cases hlk : List.lookup p s.fs with
    | none =>
      simp only [gateHashes, hlk]
      exact ⟨rfl, rfl⟩
    | some content =>
      simp only [gateHashes, hlk]
      rw [hlow]
      by_cases hm : hashFn content = strLower F
      · simp only [if_pos hm]
        exact ⟨by trivial, by trivial⟩
      · simp only [if_neg hm]
        exact ⟨by trivial, by trivial⟩
  · intro content hlk hne
    rw [check_preconditions_hashOnly]
    simp only [gateHashes, hlk]
    rw [if_neg hne]
    refine ⟨by trivial, ?_⟩
    exact containsSubstr_append_left ("file '" ++ p) ⟨['\'', ' '], [], by decide⟩
  · intro hlk
    rw [check_preconditions_hashOnly]
    simp only [gateHashes, hlk]
    refine ⟨by trivial, ?_⟩
    exact containsSubstr_append_left ("file '" ++ p)
      ⟨['\'', ' '], " for hash check".data, by decide⟩

/-- C6 witness: `"2AB"` gates like `"2ab"`; a wrong digest reports
"hash mismatch"; a missing file reports "not found". -/
theorem C6_file_hash_gate_witness :
    (gateView (check_preconditions (fun _ => "abc") engineBaseState
        (hashOnlyIntent "a.txt" "2AB")) =
      gateView (check_preconditions (fun _ => "abc") engineBaseState
        (hashOnlyIntent "a.txt" "2ab")) ∧
     (check_preconditions (fun _ => "abc") engineBaseState
        (hashOnlyIntent "a.txt" "2AB")).isNone =
      (check_preconditions (fun _ => "abc") engineBaseState
        (hashOnlyIntent "a.txt" "2ab")).isNone) ∧
    (check_preconditions (fun _ => "abc") engineBaseState (hashOnlyIntent "a.txt" "XYZ") =
      some (.PreconditionFailed ("file '" ++ "a.txt" ++ "' hash mismatch") "XYZ" "abc") ∧
     containsSubstr "hash mismatch" ("file '" ++ "a.txt" ++ "' hash mismatch") = true) ∧
    (check_preconditions (fun _ => "abc") engineBaseState (hashOnlyIntent "nope.txt" "XYZ") =
      some (.PreconditionFailed ("file '" ++ "nope.txt" ++ "' not found for hash check")
        "XYZ" "file not found") ∧
     containsSubstr "not found" ("file '" ++ "nope.txt" ++ "' not found for hash check") =
       true) :=
  ⟨(C6_file_hash_gate (fun _ => "abc") engineBaseState "a.txt" "2AB" "2ab").1 (by decide),
   (C6_file_hash_gate (fun _ => "abc") engineBaseState "a.txt" "XYZ" "").2.1 "old"
     (by rfl) (by decide),
   (C6_file_hash_gate (fun _ => "abc") engineBaseState "nope.txt" "XYZ" "").2.2 (by rfl)⟩

/-! ### Checkpoint listing (src/main.rs, `cmd_checkpoint_list`) -/

/-- A stored checkpoint as `cmd_checkpoint_list` sees it (the fields the
sort consults; `created_at` is the ISO-8601 timestamp string, modelled as
its character list so Rust's lexicographic `str::cmp` is the list
lexicographic order). -/
structure Checkpoint where
  name : List Char
  created_at : List Char
deriving DecidableEq

/-- The sort of `cmd_checkpoint_list` (src/main.rs:1529-1534):
`sort_by(|a, b| b_time.cmp(a_time))`, i.e. the stable sort that orders
checkpoints by descending `created_at`.  Rust's stable `sort_by` and
insertion sort compute the same function for a total comparator, so the
model uses `List.insertionSort` with "later or equal timestamp first". -/
def sortCheckpoints (l : List Checkpoint) : List Checkpoint :=
  l.insertionSort fun a b => b.created_at ≤ a.created_at

def cpA : Checkpoint :=
  { name := "cp-a".data, created_at := "2026-02-14T10:23:15Z".data }

def cpB : Checkpoint :=
  { name := "cp-b".data, created_at := "2026-02-14T10:23:15Z".data }

def cpC : Checkpoint :=
  { name := "cp-c".data, created_at := "2026-02-15T00:00:00Z".data }

/-- C7 counterexample: two checkpoints created in the same second keep
their equal timestamps adjacent, so the output is not strictly
descending. -/
theorem C7_counterexample :
    ¬ ((sortCheckpoints [cpA, cpB]).Chain' fun a b => b.created_at < a.created_at) := by
  intro h
  have hsort : sortCheckpoints [cpA, cpB] = [cpA, cpB] := by decide
  rw [hsort, List.chain'_cons] at h
  exact absurd h.1 (by decide)

/-- C7 (amended): the checkpoint list is sorted in non-increasing
(descending) order of the `created_at` timestamp string, ties preserved
in input order; it is strictly descending whenever the stored timestamps
are pairwise distinct. -/
theorem C7_checkpoint_list_sorted (l : List Checkpoint) :
    ((sortCheckpoints l).Chain' fun a b => b.created_at ≤ a.created_at) ∧
    ((l.Pairwise fun a b => a.created_at ≠ b.created_at) →
      (sortCheckpoints l).Chain' fun a b => b.created_at < a.created_at) := by
  haveI htotal : IsTotal Checkpoint fun a b => b.created_at ≤ a.created_at :=
    ⟨fun a b => le_total b.created_at a.created_at⟩
  haveI htrans : IsTrans Checkpoint fun a b => b.created_at ≤ a.created_at :=
    ⟨fun _ _ _ hab hbc => le_trans hbc hab⟩
  have hsorted : List.Pairwise (fun a b => b.created_at ≤ a.created_at) (sortCheckpoints l) :=
    List.sorted_insertionSort _ l
  refine ⟨hsorted.chain', fun hdist => ?_⟩
  have hperm := List.perm_insertionSort
    (fun a b : Checkpoint => b.created_at ≤ a.created_at) l
  have hdist' : List.Pairwise (fun a b : Checkpoint => a.created_at ≠ b.created_at)
      (sortCheckpoints l) :=
    (List.Perm.pairwise_iff (fun hxy => hxy.symm) hperm).mpr hdist
  have hand := hsorted.and hdist'
  exact (hand.imp fun hab => lt_of_le_of_ne hab.1 (Ne.symm hab.2)).chain'

/-- C7 witness: distinct timestamps come out strictly descending. -/
theorem C7_checkpoint_list_sorted_witness :
    ((sortCheckpoints [cpA, cpC]).Chain' fun a b => b.created_at ≤ a.created_at) ∧
    ((sortCheckpoints [cpA, cpC]).Chain' fun a b => b.created_at < a.created_at) :=
  ⟨(C7_checkpoint_list_sorted [cpA, cpC]).1,
   (C7_checkpoint_list_sorted [cpA, cpC]).2 (by
     refine List.pairwise_cons.mpr ⟨?_, List.pairwise_singleton _ _⟩
     intro b hb
     rw [List.mem_singleton] at hb
     subst hb
     decide)⟩

/-! ### Symbol extraction post-processing (src/symbols.rs, `extract_symbols`) -/

/-- The fields of the extractor's symbol record consulted by the
sort/dedup post-processing of `extract_symbols` (src/symbols.rs:268-272);
named `SrcSymbol` because Mathlib already declares `Symbol`. -/
structure SrcSymbol where
  name : String
  start_line : Nat
deriving DecidableEq

/-- The sort of src/symbols.rs:269:
`sort_by(|a, b| a.start_line.cmp(&b.start_line))` — the stable sort
ascending by `start_line`, modelled as `List.insertionSort`. -/
def sortSymbols (l : List SrcSymbol) : List SrcSymbol :=
  l.insertionSort fun a b => a.start_line ≤ b.start_line

/-- The loop of `Vec::dedup_by`: `x` is the last retained element; an
incoming element equal to it (by name and start line) is dropped,
otherwise it is kept and becomes the last retained element. -/
def dedupGo (x : SrcSymbol) : List SrcSymbol → List SrcSymbol
  | [] => []
  | y :: t =>
    if x.name = y.name ∧ x.start_line = y.start_line then dedupGo x t
    else y :: dedupGo y t

/-- `Vec::dedup_by` with
`|a, b| a.name == b.name && a.start_line == b.start_line`
(src/symbols.rs:270): removes only CONSECUTIVE (name, start_line)
duplicates, keeping the first of each run. -/
def dedupByNameLine : List SrcSymbol → List SrcSymbol
  | [] => []
  | x :: t => x :: dedupGo x t

/-- The post-processing of `extract_symbols`: sort by start line, then
dedup consecutive (name, start_line) duplicates. -/
def extract_symbols_post (l : List SrcSymbol) : List SrcSymbol :=
  dedupByNameLine (sortSymbols l)

theorem dedupGo_sublist (x : SrcSymbol) (l : List SrcSymbol) :
    List.Sublist (dedupGo x l) l := by
  induction l generalizing x with
  | nil => exact List.Sublist.refl _
  | cons y t ih =>
    rw [dedupGo]
    by_cases hsame : x.name = y.name ∧ x.start_line = y.start_line
    · rw [if_pos hsame]
      exact (ih x).trans (List.sublist_cons_self y t)
    · rw [if_neg hsame]
      exact (ih y).cons₂ y

theorem dedupByNameLine_sublist (l : List SrcSymbol) :
    List.Sublist (dedupByNameLine l) l := by
  cases l with
  | nil => exact List.Sublist.refl _
  | cons x t => exact (dedupGo_sublist x t).cons₂ x

theorem dedupGo_chain' (x : SrcSymbol) (l : List SrcSymbol) :
    (x :: dedupGo x l).Chain'
      fun a b => ¬(a.name = b.name ∧ a.start_line = b.start_line) := by
  induction l generalizing x with
  | nil => exact List.chain'_singleton x
  | cons y t ih =>
    rw [dedupGo]
    by_cases hsame : x.name = y.name ∧ x.start_line = y.start_line
    · rw [if_pos hsame]
      exact ih x
    · rw [if_neg hsame]
      exact List.chain'_cons.mpr ⟨hsame, ih y⟩

theorem dedupByNameLine_chain' (l : List SrcSymbol) :
    (dedupByNameLine l).Chain'
      fun a b => ¬(a.name = b.name ∧ a.start_line = b.start_line) := by
  cases l with
  | nil => exact List.chain'_nil
  | cons x t => exact dedupGo_chain' x t

/-- C8 counterexample: with matches `a`, `b`, `a` all on line 1, the two
`a` entries are not consecutive after the stable sort, so `dedup_by`
keeps both and the output has two entries with the same
(name, start_line). -/
theorem C8_counterexample :
    ¬ ((extract_symbols_post [⟨"a", 1⟩, ⟨"b", 1⟩, ⟨"a", 1⟩]).Pairwise
        fun s t => ¬(s.name = t.name ∧ s.start_line = t.start_line)) := by
  intro h
  have hval : extract_symbols_post [⟨"a", 1⟩, ⟨"b", 1⟩, ⟨"a", 1⟩] =
      [⟨"a", 1⟩, ⟨"b", 1⟩, ⟨"a", 1⟩] := by decide
  rw [hval] at h
  exact (List.pairwise_cons.mp h).1 ⟨"a", 1⟩ (by decide) ⟨rfl, rfl⟩

/-- C8 (amended): the extractor's output is sorted by `start_line`, and no
two CONSECUTIVE entries share the same (name, start_line); full
deduplication is not guaranteed when equal keys are separated by another
symbol on the same line. -/
theorem C8_symbols_sorted_consecutive_dedup (l : List SrcSymbol) :
    ((extract_symbols_post l).Chain' fun a b => a.start_line ≤ b.start_line) ∧
    ((extract_symbols_post l).Chain'
      fun a b => ¬(a.name = b.name ∧ a.start_line = b.start_line)) := by
  constructor
  · haveI : IsTotal SrcSymbol fun a b => a.start_line ≤ b.start_line :=
      ⟨fun a b => Nat.le_total a.start_line b.start_line⟩
    haveI : IsTrans SrcSymbol fun a b => a.start_line ≤ b.start_line :=
      ⟨fun _ _ _ hab hbc => le_trans hab hbc⟩
    have hsorted : List.Pairwise (fun a b => a.start_line ≤ b.start_line) (sortSymbols l) :=
      List.sorted_insertionSort _ l
    exact (hsorted.sublist (dedupByNameLine_sublist (sortSymbols l))).chain'
  · exact dedupByNameLine_chain' (sortSymbols l)

/-! ## Date conversions: the chrono-lite loop versus the Hinnant algorithm (C9) -/

set_option maxRecDepth 10000

/-- Rust `is_leap_year` (src/main.rs:1616-1618). -/
def is_leap_year (y : Nat) : Bool :=
  (y % 4 == 0 && y % 100 != 0) || (y % 400 == 0)

def yearLen (leap : Bool) : Nat := if leap then 366 else 365

def daysInYear (y : Nat) : Nat := yearLen (is_leap_year y)

theorem daysInYear_pos (y : Nat) : 0 < daysInYear y := by
  rw [daysInYear, yearLen]
  split <;> omega

/-- The year loop of `chrono_lite_now` (src/main.rs:1581-1591). -/
def yearLoop (y : Nat) (d : Nat) : Nat × Nat :=
  if _h : d < daysInYear y then (y, d)
  else yearLoop (y + 1) (d - daysInYear y)
termination_by d
decreasing_by
  have := daysInYear_pos y
  omega

/-- The month-length table of `chrono_lite_now` (src/main.rs:1594-1598). -/
def monthLengths (leap : Bool) : List Nat :=
  if leap then [31, 29, 31, 30, 31, 30, 31, 31, 30, 31, 30, 31]
  else [31, 28, 31, 30, 31, 30, 31, 31, 30, 31, 30, 31]

/-- The month loop of `chrono_lite_now` (src/main.rs:1600-1607): returns
(number of whole months consumed, remaining days). -/
def monthLoop : List Nat → Nat → Nat × Nat
  | [], r => (0, r)
  | dim :: rest, r =>
    if r < dim then (0, r)
    else
      let p := monthLoop rest (r - dim)
      (p.1 + 1, p.2)

/-- Month is one plus the months consumed, day is remaining plus one
(src/main.rs:1600-1608). -/
def finishYear (leap : Bool) (r : Nat) : Nat × Nat :=
  let p := monthLoop (monthLengths leap) r
  (p.1 + 1, p.2 + 1)

/-- The (year, month, day) computed by `chrono_lite_now`
(src/main.rs:1574-1608) for a day count since the Unix epoch. -/
def chrono_lite_ymd (d : Nat) : Nat × Nat × Nat :=
  let yr := yearLoop 1970 d
  let md := finishYear (is_leap_year yr.1) yr.2
  (yr.1, md.1, md.2)

/-- Rust `days_to_ymd` (src/repo.rs:1963-1977).  Rust `i64`/`u32` division
truncates; on this claim's domain (day counts `≥ 0`) every division
below has non-negative operands, where Lean's integer division
agrees. -/
def days_to_ymd (days : Int) : Int × Int × Int :=
  let z := days + 719468
  let era := (if 0 ≤ z then z else z - 146096) / 146097
  let doe := z - era * 146097
  let yoe := (doe - doe / 1460 + doe / 36524 - doe / 146096) / 365
  let y := yoe + era * 400
  let doy := doe - (365 * yoe + yoe / 4 - yoe / 100)
  let mp := (5 * doy + 2) / 153
  let d := doy - (153 * mp + 2) / 5 + 1
  let m := if mp < 10 then mp + 3 else mp - 9
  (if m ≤ 2 then y + 1 else y, m, d)

/-- Month length by leap flag and month number (1-12). -/
def monthLenB (leap : Bool) (m : Nat) : Nat := (monthLengths leap).getD (m - 1) 0

/-- Month length of month `m` of year `y`. -/
def monthLen (y m : Nat) : Nat := monthLenB (is_leap_year y) m

/-- Successor function on civil dates. -/
def civilNext (t : Nat × Nat × Nat) : Nat × Nat × Nat :=
  if t.2.2 < monthLen t.1 t.2.1 then (t.1, t.2.1, t.2.2 + 1)
  else if t.2.1 < 12 then (t.1, t.2.1 + 1, 1)
  else (t.1 + 1, 1, 1)

/-- Validity of a civil date. -/
def ValidDate (t : Nat × Nat × Nat) : Prop :=
  1 ≤ t.2.1 ∧ t.2.1 ≤ 12 ∧ 1 ≤ t.2.2 ∧ t.2.2 ≤ monthLen t.1 t.2.1

/-- Hinnant's shifted month index: March = 0, ..., February = 11. -/
def mp_of (m : Nat) : Nat := if 2 < m then m - 3 else m + 9

/-- Day of the shifted (March-first) year. -/
def doy_of (m d : Nat) : Nat := (153 * mp_of m + 2) / 5 + d - 1

/-- The shifted year (a date in January/February belongs to the previous
shifted year). -/
def sy (y m : Nat) : Nat := if m ≤ 2 then y - 1 else y

/-- One if `x` is a leap year, else zero (propositional form). -/
def leapD (x : Nat) : Nat :=
  if (x % 4 = 0 ∧ x % 100 ≠ 0) ∨ x % 400 = 0 then 1 else 0

/-- Hinnant's forward function: days since 0000-03-01 of the era scheme
(equal to days since epoch + 719468). -/
def gN (y m d : Nat) : Nat :=
  (sy y m / 400) * 146097 +
    (365 * (sy y m % 400) + (sy y m % 400) / 4 - (sy y m % 400) / 100 + doy_of m d)

/-! ### yearLoop lemmas -/

theorem yearLoop_base {y d : Nat} (h : d < daysInYear y) : yearLoop y d = (y, d) := by
  rw [yearLoop]
  simp [h]

theorem yearLoop_step {y d : Nat} (h : ¬ d < daysInYear y) :
    yearLoop y d = yearLoop (y + 1) (d - daysInYear y) := by
  rw [yearLoop]
  simp [h]

theorem yearLoop_spec (d : Nat) : ∀ y : Nat,
    (yearLoop y d).2 < daysInYear (yearLoop y d).1 ∧ y ≤ (yearLoop y d).1 := by
  induction d using Nat.strong_induction_on with
  | _ d ih =>
    intro y
    by_cases h : d < daysInYear y
    · rw [yearLoop_base h]
      exact ⟨h, le_refl y⟩
    · rw [yearLoop_step h]
      have hpos := daysInYear_pos y
      have hlt : d - daysInYear y < d := by omega
      obtain ⟨h1, h2⟩ := ih (d - daysInYear y) hlt (y + 1)
      exact ⟨h1, by omega⟩

theorem yearLoop_succ (d : Nat) : ∀ y : Nat,
    yearLoop y (d + 1) =
      (if (yearLoop y d).2 + 1 < daysInYear (yearLoop y d).1
       then ((yearLoop y d).1, (yearLoop y d).2 + 1)
       else ((yearLoop y d).1 + 1, 0)) := by
  induction d using Nat.strong_induction_on with
  | _ d ih =>
    intro y
    have hpos := daysInYear_pos y
    by_cases h1 : d + 1 < daysInYear y
    · have h0 : d < daysInYear y := by omega
      rw [yearLoop_base h1, yearLoop_base h0]
      simp [h1]
    · by_cases h0 : d < daysInYear y
      · rw [yearLoop_step h1, yearLoop_base h0]
        have hz : d + 1 - daysInYear y = 0 := by omega
        rw [hz, yearLoop_base (daysInYear_pos (y + 1))]
        simp only [h1, if_false]
      · rw [yearLoop_step h1, yearLoop_step h0]
        have harith : d + 1 - daysInYear y = (d - daysInYear y) + 1 := by omega
        rw [harith]
        exact ih (d - daysInYear y) (by omega) (y + 1)

/-! ### leap-year bridges -/

theorem is_leap_iff (x : Nat) :
    is_leap_year x = true ↔ ((x % 4 = 0 ∧ x % 100 ≠ 0) ∨ x % 400 = 0) := by
  simp [is_leap_year]

theorem leapD_eq (x : Nat) : leapD x = if is_leap_year x then 1 else 0 := by
  rw [leapD]
  by_cases h : (x % 4 = 0 ∧ x % 100 ≠ 0) ∨ x % 400 = 0
  · rw [if_pos h, if_pos ((is_leap_iff x).mpr h)]
  · rw [if_neg h, if_neg (by rw [is_leap_iff]; exact h)]

theorem leapD_congr (a b : Nat) (h : a % 400 = b % 400) : leapD a = leapD b := by
  unfold leapD
  split <;> split <;> omega

theorem yearLen_eq (y : Nat) : yearLen (is_leap_year y) = 365 + leapD y := by
  rw [leapD_eq, yearLen]
  cases is_leap_year y <;> simp

theorem monthLen_feb (y : Nat) : monthLen y 2 = 28 + leapD y := by
  rw [leapD_eq]
  unfold monthLen monthLenB
  cases is_leap_year y <;> simp [monthLengths]

/-! ### bounded month-level facts, checked by kernel evaluation -/

def stepOkB (leap : Bool) (r : Nat) : Bool :=
  let md := finishYear leap r
  let md2 := finishYear leap (r + 1)
  if md.2 < monthLenB leap md.1 then
    md2 == (md.1, md.2 + 1)
  else
    decide (md.1 < 12) && (md2 == (md.1 + 1, 1))

def validB (leap : Bool) (r : Nat) : Bool :=
  let md := finishYear leap r
  decide (1 ≤ md.1) && decide (md.1 ≤ 12) && decide (1 ≤ md.2)
    && decide (md.2 ≤ monthLenB leap md.1)

theorem stepOk_false : ∀ r < 364, stepOkB false r = true := by decide
theorem stepOk_true : ∀ r < 365, stepOkB true r = true := by decide
theorem valid_false : ∀ r < 365, validB false r = true := by decide
theorem valid_true : ∀ r < 366, validB true r = true := by decide
theorem finishYear_last_false : finishYear false 364 = (12, 31) := by decide
theorem finishYear_last_true : finishYear true 365 = (12, 31) := by decide
theorem finishYear_zero (leap : Bool) : finishYear leap 0 = (1, 1) := by
  cases leap <;> decide
theorem monthLenB_12 (leap : Bool) : monthLenB leap 12 = 31 := by
  cases leap <;> decide

/-! ### bounded Hinnant month facts, checked by kernel evaluation -/

theorem mp_recover : ∀ leap : Bool, ∀ m < 13, ∀ dd < 32,
    1 ≤ m → 1 ≤ dd → dd ≤ monthLenB leap m →
      (5 * doy_of m dd + 2) / 153 = mp_of m := by decide

theorem m_recover : ∀ m < 13, 1 ≤ m →
    (if mp_of m < 10 then mp_of m + 3 else mp_of m - 9) = m := by decide

theorem doy_small : ∀ leap : Bool, ∀ m < 13, ∀ dd < 32,
    3 ≤ m → 1 ≤ dd → dd ≤ monthLenB leap m → doy_of m dd < 365 := by decide

theorem doy_jan : ∀ dd < 32, 1 ≤ dd → doy_of 1 dd < 365 := by decide

theorem doy_feb : ∀ dd < 30, 1 ≤ dd → doy_of 2 dd ≤ 336 + dd := by decide

/-! ### the chrono loop advances by civil successor -/

theorem chrono_parts (d : Nat) :
    chrono_lite_ymd d = ((yearLoop 1970 d).1,
      finishYear (is_leap_year (yearLoop 1970 d).1) (yearLoop 1970 d).2) := by
  rfl

theorem chrono_step (d : Nat) :
    chrono_lite_ymd (d + 1) = civilNext (chrono_lite_ymd d) := by
  obtain ⟨hr, -⟩ := yearLoop_spec d 1970
  have hsucc := yearLoop_succ d 1970
  by_cases hc : (yearLoop 1970 d).2 + 1 < daysInYear (yearLoop 1970 d).1
  · rw [if_pos hc] at hsucc
    have hstep : stepOkB (is_leap_year (yearLoop 1970 d).1) (yearLoop 1970 d).2 = true := by
      cases hl : is_leap_year (yearLoop 1970 d).1 with
      | false =>
        apply stepOk_false
        rw [daysInYear, hl] at hc
        simp [yearLen] at hc
        omega
      | true =>
        apply stepOk_true
        rw [daysInYear, hl] at hc
        simp [yearLen] at hc
        omega
    rw [chrono_parts (d + 1), hsucc, chrono_parts d, civilNext]
    simp only [stepOkB] at hstep
    dsimp only [monthLen]
    split at hstep
    next h =>
      rw [beq_iff_eq] at hstep
      rw [if_pos h, hstep]
    next h =>
      rw [if_neg h]
      simp only [Bool.and_eq_true, decide_eq_true_eq, beq_iff_eq] at hstep
      rw [if_pos hstep.1, hstep.2]
  · rw [if_neg hc] at hsucc
    have hrend : (yearLoop 1970 d).2 + 1 = daysInYear (yearLoop 1970 d).1 := by omega
    rw [chrono_parts (d + 1), hsucc, chrono_parts d, civilNext, finishYear_zero]
    cases hl : is_leap_year (yearLoop 1970 d).1 with
    | false =>
      rw [daysInYear, hl] at hrend
      simp [yearLen] at hrend
      have h364 : (yearLoop 1970 d).2 = 364 := by omega
      rw [h364, finishYear_last_false]
      dsimp only [monthLen]
      rw [hl, monthLenB_12]
      norm_num
    | true =>
      rw [daysInYear, hl] at hrend
      simp [yearLen] at hrend
      have h365 : (yearLoop 1970 d).2 = 365 := by omega
      rw [h365, finishYear_last_true]
      dsimp only [monthLen]
      rw [hl, monthLenB_12]
      norm_num

theorem chrono_valid (d : Nat) :
    ValidDate (chrono_lite_ymd d) ∧ 1970 ≤ (chrono_lite_ymd d).1 := by
  obtain ⟨hr, hy⟩ := yearLoop_spec d 1970
  have hv : validB (is_leap_year (yearLoop 1970 d).1) (yearLoop 1970 d).2 = true := by
    cases hl : is_leap_year (yearLoop 1970 d).1 with
    | false =>
      apply valid_false
      rw [daysInYear, hl] at hr
      simp [yearLen] at hr
      omega
    | true =>
      apply valid_true
      rw [daysInYear, hl] at hr
      simp [yearLen] at hr
      omega
  simp only [validB, Bool.and_eq_true, decide_eq_true_eq] at hv
  rw [chrono_parts d]
  refine ⟨⟨hv.1.1.1, hv.1.1.2, hv.1.2, ?_⟩, hy⟩
  dsimp only [ValidDate, monthLen]
  exact hv.2

/-! ### the forward day-count function advances by 1 along civilNext -/

def gN3 (t : Nat × Nat × Nat) : Nat := gN t.1 t.2.1 t.2.2

theorem era_year_step (y : Nat) (h : 1 ≤ y) :
    (y / 400) * 146097 + (365 * (y % 400) + (y % 400) / 4 - (y % 400) / 100)
      = ((y - 1) / 400) * 146097
        + (365 * ((y - 1) % 400) + ((y - 1) % 400) / 4 - ((y - 1) % 400) / 100)
        + 365 + leapD y := by
  unfold leapD
  split <;> omega

theorem month_roll : ∀ leap : Bool, ∀ m < 12, 1 ≤ m → m ≠ 2 →
    doy_of (m + 1) 1 = doy_of m (monthLenB leap m) + 1 := by decide

theorem gN_step (t : Nat × Nat × Nat) (hv : ValidDate t) (hy1 : 1 ≤ t.1) :
    gN3 (civilNext t) = gN3 t + 1 := by
  obtain ⟨y, m, dd⟩ := t
  simp only [ValidDate] at hv
  obtain ⟨hm1, hm2, hd1, hd2⟩ := hv
  dsimp only at hm1 hm2 hd1 hd2 hy1
  rw [civilNext]
  dsimp only
  by_cases hlt : dd < monthLen y m
  · rw [if_pos hlt]
    unfold gN3 gN doy_of
    dsimp only
    omega
  · rw [if_neg hlt]
    have hdd : dd = monthLen y m := by omega
    by_cases hm12 : m < 12
    · rw [if_pos hm12]
      by_cases hne : m = 2
      · subst hne
        subst hdd
        rw [monthLen_feb]
        unfold gN3 gN sy
        dsimp only
        have h3 : doy_of 3 1 = 0 := by decide
        have h2 : doy_of 2 (28 + leapD y) = 364 + leapD y := by
          simp only [doy_of, mp_of]
          norm_num
          omega
        rw [h3]
        norm_num
        rw [h2]
        have hstep := era_year_step y hy1
        omega
      · have hsy : sy y (m + 1) = sy y m := by
          unfold sy
          split <;> split <;> omega
        have hroll := month_roll (is_leap_year y) m hm12 hm1 hne
        subst hdd
        unfold gN3 gN
        dsimp only
        rw [hsy]
        unfold monthLen
        rw [hroll]
        omega
    · rw [if_neg hm12]
      have hm' : m = 12 := by omega
      subst hm'
      have h31 : monthLen y 12 = 31 := by
        unfold monthLen
        rw [monthLenB_12]
      rw [h31] at hdd
      subst hdd
      unfold gN3 gN sy
      dsimp only
      have ha : doy_of 1 1 = 306 := by decide
      have hb : doy_of 12 31 = 305 := by decide
      rw [ha, hb]
      norm_num
      omega

theorem gN_chrono (d : Nat) : gN3 (chrono_lite_ymd d) = d + 719468 := by
  induction d with
  | zero =>
    have h0 : chrono_lite_ymd 0 = (1970, 1, 1) := by
      rw [chrono_parts, yearLoop_base (d := 0) (by decide)]
      dsimp only
      rw [finishYear_zero]
    rw [h0]
    decide
  | succ d ih =>
    obtain ⟨hv, hy⟩ := chrono_valid d
    have h1 := gN_step (chrono_lite_ymd d) hv (by omega)
    rw [chrono_step, h1]
    omega

/-! ### recovering a valid date from its day count (Hinnant inversion) -/

set_option maxHeartbeats 8000000 in
theorem yoe_recover (yoe doy : Nat) (h1 : yoe ≤ 399)
    (h2 : doy < 365 + leapD (yoe + 1)) :
    ((365 * yoe + yoe / 4 - yoe / 100 + doy)
        - (365 * yoe + yoe / 4 - yoe / 100 + doy) / 1460
        + (365 * yoe + yoe / 4 - yoe / 100 + doy) / 36524
        - (365 * yoe + yoe / 4 - yoe / 100 + doy) / 146096) / 365 = yoe := by
  unfold leapD at h2
  split at h2 <;> interval_cases yoe <;> omega

theorem R_lt (yoe doy : Nat) (h1 : yoe ≤ 399) (h2 : doy < 365 + leapD (yoe + 1)) :
    365 * yoe + yoe / 4 - yoe / 100 + doy < 146097 := by
  unfold leapD at h2
  split at h2 <;> omega

theorem monthLenB_le31 : ∀ leap : Bool, ∀ m < 13, monthLenB leap m ≤ 31 := by decide

theorem leapD_le (x : Nat) : leapD x ≤ 1 := by
  unfold leapD
  split <;> omega

theorem doy_bound (y m dd : Nat) (hy1 : 1 ≤ y) (hm1 : 1 ≤ m) (hm2 : m ≤ 12)
    (hd1 : 1 ≤ dd) (hd2 : dd ≤ monthLen y m) :
    doy_of m dd < 365 + leapD (sy y m + 1) := by
  by_cases h3 : 3 ≤ m
  · have hsy : sy y m = y := by
      unfold sy
      rw [if_neg (by omega)]
    have h32 : dd < 32 := by
      have hle := monthLenB_le31 (is_leap_year y) m (by omega)
      have hml : monthLen y m = monthLenB (is_leap_year y) m := rfl
      omega
    have hlt := doy_small (is_leap_year y) m (by omega) dd h32 h3 hd1 hd2
    have hl0 : 0 ≤ leapD (sy y m + 1) := Nat.zero_le _
    omega
  · have hsy : sy y m + 1 = y := by
      unfold sy
      rw [if_pos (by omega)]
      omega
    rw [hsy]
    interval_cases m
    · have h32 : dd < 32 := by
        have hle := monthLenB_le31 (is_leap_year y) 1 (by omega)
        have hml : monthLen y 1 = monthLenB (is_leap_year y) 1 := rfl
        omega
      have := doy_jan dd h32 hd1
      have hl0 : 0 ≤ leapD y := Nat.zero_le _
      omega
    · rw [monthLen_feb] at hd2
      have hl1 := leapD_le y
      have h30 : dd < 30 := by omega
      have := doy_feb dd h30 hd1
      omega

theorem days_to_ymd_eval (days z era doe yoe y doy mp d m : Int)
    (hz : z = days + 719468)
    (hera : era = (if 0 ≤ z then z else z - 146096) / 146097)
    (hdoe : doe = z - era * 146097)
    (hyoe : yoe = (doe - doe / 1460 + doe / 36524 - doe / 146096) / 365)
    (hy : y = yoe + era * 400)
    (hdoy : doy = doe - (365 * yoe + yoe / 4 - yoe / 100))
    (hmp : mp = (5 * doy + 2) / 153)
    (hd : d = doy - (153 * mp + 2) / 5 + 1)
    (hm : m = if mp < 10 then mp + 3 else mp - 9) :
    days_to_ymd days = (if m ≤ 2 then y + 1 else y, m, d) := by
  subst hm
  subst hd
  subst hmp
  subst hdoy
  subst hy
  subst hyoe
  subst hdoe
  subst hera
  subst hz
  rfl

theorem days_to_ymd_gN (y m dd : Nat) (hv : ValidDate (y, m, dd)) (hy1 : 1 ≤ y) :
    days_to_ymd ((gN y m dd : Int) - 719468) = ((y : Int), (m : Int), (dd : Int)) := by
  simp only [ValidDate] at hv
  obtain ⟨hm1, hm2, hd1, hd2⟩ := hv
  obtain ⟨s, hs⟩ : ∃ s, sy y m = s := ⟨_, rfl⟩
  obtain ⟨era, herad⟩ : ∃ e, s / 400 = e := ⟨_, rfl⟩
  obtain ⟨yoe, hyoed⟩ : ∃ e, s % 400 = e := ⟨_, rfl⟩
  obtain ⟨doy, hdoyd⟩ : ∃ e, doy_of m dd = e := ⟨_, rfl⟩
  obtain ⟨R, hRd⟩ : ∃ e, 365 * yoe + yoe / 4 - yoe / 100 + doy = e := ⟨_, rfl⟩
  have hN : gN y m dd = era * 146097 + R := by
    unfold gN
    rw [hs, herad, hyoed, hdoyd, hRd]
  have hyoe399 : yoe ≤ 399 := by omega
  have hdb : doy < 365 + leapD (yoe + 1) := by
    have h0 := doy_bound y m dd hy1 hm1 hm2 hd1 hd2
    rw [hs, hdoyd] at h0
    have h1 : leapD (s + 1) = leapD (yoe + 1) := leapD_congr _ _ (by omega)
    omega
  have hRlt : R < 146097 := by
    have := R_lt yoe doy hyoe399 hdb
    omega
  have hyoerec : (R - R / 1460 + R / 36524 - R / 146096) / 365 = yoe := by
    have := yoe_recover yoe doy hyoe399 hdb
    rw [hRd] at this
    exact this
  have hmp : (5 * doy + 2) / 153 = mp_of m := by
    have h32 : dd < 32 := by
      have hle := monthLenB_le31 (is_leap_year y) m (by omega)
      have hml : monthLen y m = monthLenB (is_leap_year y) m := rfl
      omega
    have hr := mp_recover (is_leap_year y) m (by omega) dd h32 hm1 hd1 hd2
    rw [hdoyd] at hr
    exact hr
  have hm' : (if mp_of m < 10 then mp_of m + 3 else mp_of m - 9) = m :=
    m_recover m (by omega) hm1
  have hdrec : doy = (153 * mp_of m + 2) / 5 + dd - 1 := by
    rw [← hdoyd]
    rfl
  rw [days_to_ymd_eval ((gN y m dd : Int) - 719468) (↑(gN y m dd)) ↑era ↑R ↑yoe ↑s
    ↑doy ↑(mp_of m) ↑dd ↑m
    (by omega)
    (by rw [if_pos (by omega)]; omega)
    (by omega)
    (by omega)
    (by omega)
    (by omega)
    (by omega)
    (by omega)
    (by
      by_cases hc : mp_of m < 10
      · rw [if_pos hc] at hm'
        rw [if_pos (by exact_mod_cast hc)]
        omega
      · rw [if_neg hc] at hm'
        rw [if_neg (by exact_mod_cast hc)]
        omega)]
  have hyfin : (if ((m : Int)) ≤ 2 then ((s : Int)) + 1 else ((s : Int))) = ((y : Int)) := by
    by_cases hc : m ≤ 2
    · have hsy2 : s = y - 1 := by
        rw [← hs]
        unfold sy
        rw [if_pos hc]
      rw [if_pos (by exact_mod_cast hc)]
      omega
    · have hsy2 : s = y := by
        rw [← hs]
        unfold sy
        rw [if_neg hc]
      rw [if_neg (by exact_mod_cast hc)]
      omega
  rw [hyfin]

/-- C9: the two unix-time-to-civil-date conversions agree.  For every
non-negative day count `d` since the Unix epoch, the incremental
year/month loop of `chrono_lite_now` produces the same (year, month, day)
triple as the closed-form Hinnant algorithm `days_to_ymd d`. -/
theorem C9_date_conversions_agree (d : Nat) :
    days_to_ymd (d : Int) =
      (((chrono_lite_ymd d).1 : Int), ((chrono_lite_ymd d).2.1 : Int),
        ((chrono_lite_ymd d).2.2 : Int)) := by
  obtain ⟨hv, hy⟩ := chrono_valid d
  have hg := gN_chrono d
  have hrec := days_to_ymd_gN (chrono_lite_ymd d).1 (chrono_lite_ymd d).2.1
    (chrono_lite_ymd d).2.2 hv (by omega)
  have harg : ((gN (chrono_lite_ymd d).1 (chrono_lite_ymd d).2.1
      (chrono_lite_ymd d).2.2 : Int)) - 719468 = (d : Int) := by
    unfold gN3 at hg
    omega
  rw [harg] at hrec
  exact hrec
